import Mathlib

/-!
A shallow embedding of the `langram` repository (two context-free grammar
recognizers: an Earley engine and an LR(1) engine) together with proofs
about the claims of its specification.

Modelling conventions:
* Rust `char` is Lean `Char`; Rust `String` (used only for rule right-hand
  sides and input words) is `List Char`.  The source iterates input words
  with `char_indices` (byte offsets); the embedding indexes by character
  position, which coincides for the single-byte characters used throughout
  the grammars and inputs considered here.
* Rust `HashSet`s of situations are duplicate-free Lean lists with a
  membership-guarded insert; only membership and cardinality of these sets
  are observable in the source, and both are preserved.
* `MultiMap<char, String>` keeps, for each key, the values in insertion
  order; it is embedded as a flat association list in global insertion
  order, with `get_vec` filtering by key (which preserves the per-key
  order).
* The saturation loops (`do_layer`, `closure`, `get_states`) run until no
  growth; they are embedded with an explicit fuel that dominates the
  number of possible iterations, and the loops stop early exactly when the
  source loops stop.
-/

namespace Langram

/-- The reserved augmented-start non-terminal `'\u{1}'` from `lib.rs`. -/
def START_RULE : Char := Char.ofNat 1

/-- The reserved end-of-input terminal `'\u{2}'` from `lib.rs`. -/
def END_TERMINAL : Char := Char.ofNat 2

/-- The reserved epsilon terminal `'\u{3}'` from `lib.rs`. -/
def EPS_TERMINAL : Char := Char.ofNat 3

/-- A production: left-hand side character and right-hand side string. -/
abbrev CFRule := Char × List Char

/-- The grammar value from `lib.rs`. -/
structure CFGrammar where
  terminals : List Char
  non_terminals : List Char
  rules : List CFRule
  start : Char
deriving Repr, DecidableEq

/-- `CFGrammar::new`: augment the user grammar with the sentinels and the
production `START → user_start`. -/
def CFGrammar.new (terminals non_terminals : List Char) (rules : List CFRule)
    (start : Char) : CFGrammar :=
  { terminals := terminals ++ [END_TERMINAL, EPS_TERMINAL]
    non_terminals := non_terminals ++ [START_RULE]
    rules := rules ++ [(START_RULE, [start])]
    start := START_RULE }

/-- `MultiMap::get_vec`: the right-hand sides stored under a key, in
insertion order. -/
def CFGrammar.get_vec (g : CFGrammar) (c : Char) : List (List Char) :=
  (g.rules.filter (fun r => r.1 == c)).map (fun r => r.2)

/-- `CFGrammar::is_terminal`. -/
def CFGrammar.is_terminal (g : CFGrammar) (c : Char) : Bool :=
  g.terminals.contains c

/-- `CFGrammar::is_non_terminal`. -/
def CFGrammar.is_non_terminal (g : CFGrammar) (c : Char) : Bool :=
  g.non_terminals.contains c

/-- `CFGrammar::get_start_rule`.  The source asserts that exactly one
production is stored under `start`; every grammar produced by
`CFGrammar.new` satisfies this, and the embedding takes the first stored
right-hand side. -/
def CFGrammar.get_start_rule (g : CFGrammar) : CFRule :=
  (g.start, (g.get_vec g.start).headD [])

/-! ## Earley engine (`earley/mod.rs`) -/

/-- An Earley item: production, dot position, origin chart index. -/
structure EarleySituation where
  rule : CFRule
  pos : Nat
  prev_cnt : Nat
deriving Repr, DecidableEq

/-- `EarleySituation::nth`: the `pos`-th character of the right-hand side,
`'\u{0}'` (the `char` default) when out of range. -/
def EarleySituation.nth (s : EarleySituation) (pos : Nat) : Char :=
  s.rule.2.getD pos (Char.ofNat 0)

/-- Membership-guarded insert: the `HashSet::insert` of the source. -/
def insertSit (x : EarleySituation) (s : List EarleySituation) :
    List EarleySituation :=
  if x ∈ s then s else s ++ [x]

/-- `HashSet::extend`. -/
def extendSits (s news : List EarleySituation) : List EarleySituation :=
  news.foldl (fun acc x => insertSit x acc) s

/-- The chart: one situation set per input position. -/
abbrev Chart := List (List EarleySituation)

/-- `EarleyParser::predict` (the private prediction pass on one layer). -/
def predictStep (g : CFGrammar) (chart : Chart) (curr : Nat) : Chart :=
  let layer := chart.getD curr []
  let news := layer.foldl (fun acc situation =>
    if situation.rule.2.length ≤ situation.pos then acc
    else
      let rule_left := situation.nth situation.pos
      (g.get_vec rule_left).foldl (fun acc2 rule_right =>
        insertSit ⟨(rule_left, rule_right), 0, curr⟩ acc2) acc) []
  chart.set curr (extendSits layer news)

/-- `EarleyParser::scan`: advance items of layer `curr` over `letter` into
layer `curr + 1`. -/
def scanStep (chart : Chart) (letter : Char) (curr : Nat) : Chart :=
  let layer := chart.getD curr []
  let news := layer.foldl (fun acc situation =>
    if situation.rule.2.length ≤ situation.pos then acc
    else if situation.nth situation.pos == letter then
      insertSit ⟨situation.rule, situation.pos + 1, situation.prev_cnt⟩ acc
    else acc) []
  chart.set (curr + 1) (extendSits (chart.getD (curr + 1) []) news)

/-- `EarleyParser::complete` on one layer. -/
def completeStep (chart : Chart) (curr : Nat) : Chart :=
  let layer := chart.getD curr []
  let news := layer.foldl (fun acc cs =>
    if cs.pos ≠ cs.rule.2.length then acc
    else (chart.getD cs.prev_cnt []).foldl (fun acc2 ps =>
      if ps.nth ps.pos == cs.rule.1 then
        insertSit ⟨ps.rule, ps.pos + 1, ps.prev_cnt⟩ acc2
      else acc2) acc) []
  chart.set curr (extendSits layer news)

/-- One predict-then-complete pass of `do_layer`. -/
def layerPass (g : CFGrammar) (chart : Chart) (layer : Nat) : Chart :=
  completeStep (predictStep g chart layer) layer

/-- `EarleyParser::do_layer`: iterate `layerPass` until the layer's size is
unchanged (the fuel dominates the number of possible growth steps). -/
def do_layer (g : CFGrammar) (fuel : Nat) (chart : Chart) (layer : Nat) :
    Chart :=
  match fuel with
  | 0 => chart
  | fuel + 1 =>
    let prev_size := (chart.getD layer []).length
    let chart1 := layerPass g chart layer
    if (chart1.getD layer []).length = prev_size then chart1
    else do_layer g fuel chart1 layer

/-- The longest right-hand side of the grammar. -/
def rhsMax (g : CFGrammar) : Nat :=
  g.rules.foldl (fun m r => max m r.2.length) 0

/-- Fuel dominating the number of `do_layer` iterations: each non-final
pass strictly grows the layer, whose size is bounded by the number of
possible items. -/
def earleyFuel (g : CFGrammar) (n : Nat) : Nat :=
  (g.rules.length + 1) * (rhsMax g + 2) * (n + 2) + 2

/-- The `EarleyParser` struct. -/
structure EarleyParser where
  grammar : Option CFGrammar
  situations : Chart

/-- `EarleyParser::new`. -/
def EarleyParser.new : EarleyParser := ⟨none, []⟩

/-- `EarleyParser::check_grammar`: succeeds iff every production's
left-hand side is listed among the non-terminals. -/
def EarleyParser.check_grammar (g : CFGrammar) : Bool :=
  g.rules.all (fun r => g.non_terminals.contains r.1)

/-- `<EarleyParser as Parser>::fit`. -/
def EarleyParser.fit (p : EarleyParser) (g : CFGrammar) :
    Except String EarleyParser :=
  if EarleyParser.check_grammar g then Except.ok ⟨some g, p.situations⟩
  else Except.error "The grammar is not context free."

/-- The scan-then-saturate loop over the word, starting at position `i`. -/
def processWord (g : CFGrammar) (fuel : Nat) :
    Chart → List Char → Nat → Chart
  | chart, [], _ => chart
  | chart, c :: rest, i =>
      processWord g fuel (do_layer g fuel (scanStep chart c i) (i + 1)) rest
        (i + 1)

/-- The chart built by one `predict` call: seed layer 0 with the start
item, saturate it, then alternate scan and saturation over the word. -/
def earleyChart (g : CFGrammar) (word : List Char) : Chart :=
  let start_rule := g.get_start_rule
  let chart0 : Chart := (List.replicate (word.length + 1) []).set 0
    [⟨start_rule, 0, 0⟩]
  let fuel := earleyFuel g word.length
  processWord g fuel (do_layer g fuel chart0 0) word 0

/-- `<EarleyParser as Parser>::predict`: the full Earley recognition run,
returning the updated parser (its rebuilt chart) and the boolean verdict. -/
def EarleyParser.predict (p : EarleyParser) (word : List Char) :
    EarleyParser × Bool :=
  match p.grammar with
  | none => (p, false)
  | some g =>
    let start_rule := g.get_start_rule
    let chartF := earleyChart g word
    let accepted := (chartF.getD word.length []).contains
      ⟨start_rule, start_rule.2.length, 0⟩
    (⟨some g, chartF⟩, accepted)

/-- Fit-then-recognize convenience wrapper for the Earley engine. -/
def earleyRecognize (g : CFGrammar) (word : List Char) : Bool :=
  match EarleyParser.new.fit g with
  | Except.error _ => false
  | Except.ok p => (p.predict word).2

end Langram

namespace Langram

/-! ## LR(1) engine (`lr/mod.rs`) -/

/-- An LR(1) item: production, dot position, lookahead terminal. -/
structure LR1Situation where
  rule : CFRule
  pos : Nat
  lookahead : Char
deriving Repr, DecidableEq

/-- `LR1Situation::nth`, with the `char` default `'\u{0}'` out of range. -/
def LR1Situation.nth (s : LR1Situation) (pos : Nat) : Char :=
  s.rule.2.getD pos (Char.ofNat 0)

/-- Lexicographic order on strings: Rust's derived `Ord` for `String`
(byte order, which agrees with code-point order on UTF-8). -/
def strLt : List Char → List Char → Bool
  | [], [] => false
  | [], _ :: _ => true
  | _ :: _, [] => false
  | a :: as, b :: bs =>
    if a < b then true else if b < a then false else strLt as bs

/-- Rust's derived `Ord` for `CFRule = (char, String)`. -/
def ruleLt (a b : CFRule) : Bool :=
  if a.1 < b.1 then true else if b.1 < a.1 then false else strLt a.2 b.2

/-- Rust's derived `Ord` for `LR1Situation` (fields in declaration
order). -/
def situLt (a b : LR1Situation) : Bool :=
  if ruleLt a.rule b.rule then true
  else if ruleLt b.rule a.rule then false
  else if a.pos < b.pos then true
  else if b.pos < a.pos then false
  else a.lookahead < b.lookahead

/-- A `BTreeSet<LR1Situation>`: a sorted, duplicate-free list. -/
abbrev LRState := List LR1Situation

/-- Ordered insert (callers guard against duplicates). -/
def insertSortedSitu (x : LR1Situation) : LRState → LRState
  | [] => [x]
  | y :: ys => if situLt x y then x :: y :: ys else y :: insertSortedSitu x ys

/-- Rust's `Ord` for `BTreeSet<LR1Situation>`: lexicographic comparison of
the sorted element sequences. -/
def stateLt : LRState → LRState → Bool
  | [], [] => false
  | [], _ :: _ => true
  | _ :: _, [] => false
  | a :: as, b :: bs =>
    if situLt a b then true else if situLt b a then false else stateLt as bs

/-- A `BTreeSet<BTreeSet<LR1Situation>>`: sorted, duplicate-free list of
states. -/
abbrev LRStates := List LRState

/-- Ordered insert of a state (callers guard against duplicates). -/
def insertSortedState (x : LRState) : LRStates → LRStates
  | [] => [x]
  | y :: ys => if stateLt x y then x :: y :: ys else y :: insertSortedState x ys

/-! ### FIRST (`get_first` / `dfs`) -/

/-- `LR1Parser::dfs`: walk the symbol string; a terminal is its own FIRST;
a non-terminal is expanded through each of its not-yet-visited
productions, and when that yields nothing the walk advances to the next
symbol.  The threaded `visited` set prevents infinite recursion in the
source; the embedding's fuel (consumed on each descent into a production
and on each advance to the next symbol) dominates the recursion depth and
is never exhausted when chosen by `dfsFuel`. -/
def dfs (g : CFGrammar) : Nat → List CFRule → List Char →
    List CFRule × List Char
  | 0, visited, _ => (visited, [])
  | fuel + 1, visited, lookup =>
    match lookup with
    | [] => (visited, [])
    | symbol :: rest =>
      if g.terminals.contains symbol then (visited, [symbol])
      else
        let vf := (g.get_vec symbol).foldl
          (fun (acc : List CFRule × List Char) rule_right =>
            if (symbol, rule_right) ∈ acc.1 then acc
            else
              let r := dfs g fuel (acc.1 ++ [(symbol, rule_right)]) rule_right
              (r.1, acc.2 ++ r.2)) (visited, [])
        if vf.2.isEmpty then dfs g fuel vf.1 rest else vf

/-- Fuel for `dfs`: dominates the alternation of production descents
(at most one per production) and symbol advances (bounded by the longest
right-hand side plus the lookahead). -/
def dfsFuel (g : CFGrammar) : Nat :=
  (g.rules.length + 1) * (rhsMax g + 2) + 2

/-- The body of the production fold inside `dfs` (an alias used by the
lemmas about `dfs`; it is definitionally the fold body above). -/
def dfsStep (g : CFGrammar) (fuel : Nat) (symbol : Char)
    (acc : List CFRule × List Char) (rule_right : List Char) :
    List CFRule × List Char :=
  if (symbol, rule_right) ∈ acc.1 then acc
  else
    let r := dfs g fuel (acc.1 ++ [(symbol, rule_right)]) rule_right
    (r.1, acc.2 ++ r.2)

/-- `LR1Parser::get_first`. -/
def get_first (g : CFGrammar) (lookup : List Char) : List Char :=
  (dfs g (dfsFuel g) [] lookup).2

/-! ### CLOSURE, GOTO, state enumeration -/

/-- Expansion of one item inside `closure`: predicted items are added to
the accumulated state and, when new, to the current difference set. -/
def closureSitu (g : CFGrammar) (acc : LRState × LRState)
    (situation : LR1Situation) : LRState × LRState :=
  if situation.rule.2.length ≤ situation.pos then acc
  else
    let rule_left := situation.nth situation.pos
    (g.get_vec rule_left).foldl (fun acc1 rule_right =>
      let lookup := situation.rule.2.drop (situation.pos + 1) ++
        [situation.lookahead]
      let first := get_first g lookup
      first.foldl (fun (acc2 : LRState × LRState) symbol =>
        let ns : LR1Situation := ⟨(rule_left, rule_right), 0, symbol⟩
        if ns ∈ acc2.1 then acc2
        else
          (insertSortedSitu ns acc2.1,
           if ns ∈ acc2.2 then acc2.2 else insertSortedSitu ns acc2.2))
        acc1) acc

/-- The worklist loop of `LR1Parser::closure` (fuel dominates the number
of growth rounds). -/
def closureLoop (g : CFGrammar) (fuel : Nat) (new_state prev_diff : LRState) :
    LRState :=
  match fuel with
  | 0 => new_state
  | fuel + 1 =>
    let nscd := prev_diff.foldl (closureSitu g) (new_state, [])
    if nscd.2.isEmpty then nscd.1
    else closureLoop g fuel nscd.1 nscd.2

/-- Fuel for `closure`: more than the number of possible items. -/
def closureFuel (g : CFGrammar) : Nat :=
  (g.rules.length + 1) * (rhsMax g + 2) * (g.terminals.length + 2) + 2

/-- `LR1Parser::closure`. -/
def closure (g : CFGrammar) (state : LRState) : LRState :=
  closureLoop g (closureFuel g) state state

/-- `LR1Parser::goto`: advance the dot over `symbol` and close. -/
def goto (g : CFGrammar) (state : LRState) (symbol : Char) : LRState :=
  let kernel := state.foldl (fun acc s =>
    if s.rule.2.length ≤ s.pos then acc
    else if s.nth s.pos == symbol then
      let adv : LR1Situation := ⟨s.rule, s.pos + 1, s.lookahead⟩
      if adv ∈ acc then acc else insertSortedSitu adv acc
    else acc) []
  closure g kernel

/-- The worklist loop of `LR1Parser::get_states`. -/
def statesLoop (g : CFGrammar) (all_symbols : List Char) (fuel : Nat)
    (states prev_diff : LRStates) : LRStates :=
  match fuel with
  | 0 => states
  | fuel + 1 =>
    let stcd := prev_diff.foldl (fun acc state =>
      all_symbols.foldl (fun (acc2 : LRStates × LRStates) symbol =>
        let gt := goto g state symbol
        if gt.isEmpty then acc2
        else if gt ∈ acc2.1 then acc2
        else
          (insertSortedState gt acc2.1,
           if gt ∈ acc2.2 then acc2.2 else insertSortedState gt acc2.2))
        acc) (states, ([] : LRStates))
    if stcd.2.isEmpty then stcd.1
    else statesLoop g all_symbols fuel stcd.1 stcd.2

/-- Fuel for `get_states`: more than the number of possible states. -/
def statesFuel (g : CFGrammar) : Nat :=
  2 ^ ((g.rules.length + 1) * (rhsMax g + 2) * (g.terminals.length + 2)) + 2

/-- `LR1Parser::get_states`. -/
def get_states (g : CFGrammar) : LRStates :=
  let s0 := closure g [⟨g.get_start_rule, 0, END_TERMINAL⟩]
  let all_symbols := g.terminals ++ g.non_terminals
  statesLoop g all_symbols (statesFuel g) [s0] [s0]

/-! ### Action table and `fit` -/

/-- The `LR1Action` tagged union. -/
inductive LR1Action
  | NoAction
  | Shift (state : Nat)
  | Reduce (count : Nat) (symbol : Char)
  | Accept
deriving Repr, DecidableEq

/-- One row of the action table. -/
abbrev Row := List (Char × LR1Action)

/-- The action table `HashMap<usize, HashMap<char, LR1Action>>`. -/
abbrev Transitions := List (Nat × Row)

/-- Row lookup with the `LR1Action` default. -/
def rowGet (r : Row) (c : Char) : LR1Action :=
  match r.find? (fun p => p.1 == c) with
  | some p => p.2
  | none => LR1Action.NoAction

/-- Table lookup with defaults (`entry(..).or_default()` reads). -/
def transGet (t : Transitions) (s : Nat) (c : Char) : LR1Action :=
  match t.find? (fun p => p.1 == s) with
  | some p => rowGet p.2 c
  | none => LR1Action.NoAction

/-- `entry(c).or_default()` on a row: materialize the default entry (hash
iteration order is unobservable, so a new entry is appended). -/
def rowEnsure (r : Row) (c : Char) : Row :=
  if (r.find? (fun q => q.1 == c)).isSome then r
  else r ++ [(c, LR1Action.NoAction)]

/-- `entry(s).or_default().entry(c).or_default()`: materialize the default
entries. -/
def transEnsure (t : Transitions) (s : Nat) (c : Char) : Transitions :=
  match t.find? (fun p => p.1 == s) with
  | some _ => t.map (fun p => if p.1 == s then (p.1, rowEnsure p.2 c) else p)
  | none => t ++ [(s, [(c, LR1Action.NoAction)])]

/-- Overwrite the (present) cell `(s, c)`. -/
def transSet (t : Transitions) (s : Nat) (c : Char) (a : LR1Action) :
    Transitions :=
  t.map (fun p =>
    if p.1 == s then (p.1, p.2.map (fun q => if q.1 == c then (q.1, a) else q))
    else p)

/-- The `LR1Parser` struct. -/
structure LR1Parser where
  transitions : Transitions
  start : Nat
deriving Repr, DecidableEq

/-- `LR1Parser::new`. -/
def LR1Parser.new : LR1Parser := ⟨[], 0⟩

/-- `LR1Parser::add_transition`: write a cell, failing on a conflicting
non-default entry. -/
def add_transition (t : Transitions) (state : Nat) (letter : Char)
    (action : LR1Action) : Except String Transitions :=
  let t1 := transEnsure t state letter
  let curr := transGet t1 state letter
  if curr = LR1Action.NoAction ∨ curr = action then
    Except.ok (transSet t1 state letter action)
  else Except.error "The given grammar is not LR(1)."

/-- `mapping.get(state).unwrap()`: the index of a state in the sorted
enumeration (`BTreeSet` iteration order). -/
def stateIdx (states : LRStates) (s : LRState) : Nat :=
  states.findIdx (fun x => x == s)

/-- The per-situation emission step of `LR1Parser::fit`. -/
def fitSituation (g : CFGrammar) (states : LRStates) (state : LRState)
    (state_mapped : Nat) (p : LR1Parser) (situation : LR1Situation) :
    Except String LR1Parser := do
  if situation.pos < situation.rule.2.length then
    let p1 ←
      if g.is_terminal (situation.nth situation.pos) then do
        let letter := situation.nth situation.pos
        let gt := goto g state letter
        let t ← add_transition p.transitions state_mapped letter
          (LR1Action.Shift (stateIdx states gt))
        pure { p with transitions := t }
      else pure p
    if situation.rule.1 == START_RULE then
      pure { p1 with start := state_mapped }
    else pure p1
  else
    if situation.rule.1 == START_RULE ∧ situation.lookahead == END_TERMINAL then
      let t ← add_transition p.transitions state_mapped situation.lookahead
        LR1Action.Accept
      pure { p with transitions := t }
    else
      let t ← add_transition p.transitions state_mapped situation.lookahead
        (LR1Action.Reduce situation.rule.2.length situation.rule.1)
      pure { p with transitions := t }

/-- The per-state emission step of `LR1Parser::fit` (situations, then the
non-terminal GOTO row). -/
def fitState (g : CFGrammar) (states : LRStates) (p : LR1Parser)
    (state : LRState) : Except String LR1Parser := do
  let state_mapped := stateIdx states state
  let p1 ← state.foldlM (fitSituation g states state state_mapped) p
  g.non_terminals.foldlM (fun acc letter => do
    let gt := goto g state letter
    if gt.isEmpty then pure acc
    else
      let t ← add_transition acc.transitions state_mapped letter
        (LR1Action.Shift (stateIdx states gt))
      pure { acc with transitions := t }) p1

/-- `<LR1Parser as Parser>::fit`. -/
def LR1Parser.fit (p : LR1Parser) (g : CFGrammar) : Except String LR1Parser :=
  let states := get_states g
  states.foldlM (fitState g states) p

/-! ### The LR(1) driver (`predict`) -/

/-- Outcome of one driver run: a boolean return, or the
`VecDeque::drain` out-of-range panic. -/
inductive DriveRes
  | ret (b : Bool)
  | panicked
deriving Repr, DecidableEq

/-- The driver loop of `LR1Parser::predict`.  The queue (state stack) and
the stack (symbol stack) are both represented with their back at the list
head.  Fuel exhaustion returns `none`; the source loop has no built-in
bound. -/
def lrRun (t : Transitions) (queue : List Nat) (stack : List Char) :
    Nat → Transitions × Option DriveRes
  | 0 => (t, none)
  | fuel + 1 =>
    match queue, stack with
    | [], _ => (t, some (DriveRes.ret false))
    | _ :: _, [] => (t, some (DriveRes.ret false))
    | s :: qrest, a :: srest =>
      let t1 := transEnsure t s a
      match transGet t1 s a with
      | LR1Action.Shift st => lrRun t1 (st :: s :: qrest) srest fuel
      | LR1Action.Reduce count symbol =>
        if (s :: qrest).length < count then (t1, some DriveRes.panicked)
        else lrRun t1 ((s :: qrest).drop count) (symbol :: a :: srest) fuel
      | LR1Action.Accept => (t1, some (DriveRes.ret true))
      | LR1Action.NoAction => (t1, some (DriveRes.ret false))

/-- `<LR1Parser as Parser>::predict`, run with the given fuel: the symbol
stack is the word followed by `END`, the state stack starts at the
recorded start state. -/
def LR1Parser.predictRun (p : LR1Parser) (word : List Char) (fuel : Nat) :
    LR1Parser × Option DriveRes :=
  let res := lrRun p.transitions [p.start] (word ++ [END_TERMINAL]) fuel
  ({ p with transitions := res.1 }, res.2)

end Langram

namespace Langram

/-! ## Derivations and language membership -/

/-- One derivation step: rewrite an occurrence of a symbol that has a
production by that production's right-hand side. -/
def RuleStep (g : CFGrammar) (u v : List Char) : Prop :=
  ∃ pre A rhs post, (A, rhs) ∈ g.rules ∧ u = pre ++ A :: post ∧
    v = pre ++ rhs ++ post

/-- Derivability: the reflexive-transitive closure of `RuleStep`. -/
def Derives (g : CFGrammar) : List Char → List Char → Prop :=
  Relation.ReflTransGen (RuleStep g)

/-- Fit-then-recognize for the LR(1) engine, run with the given fuel
(`none` on fit failure or fuel exhaustion). -/
def lr1Recognize (g : CFGrammar) (word : List Char) (fuel : Nat) :
    Option DriveRes :=
  match LR1Parser.new.fit g with
  | Except.error _ => none
  | Except.ok p => (p.predictRun word fuel).2

/-- The initial LR(1) state `S0 = CLOSURE({(START → ·u, END)})`. -/
def initialState (g : CFGrammar) : LRState :=
  closure g [⟨g.get_start_rule, 0, END_TERMINAL⟩]

/-- Grammar `S → a` over terminal alphabet `{a}`. -/
def gUnit : CFGrammar := CFGrammar.new ['a'] ['S'] [('S', ['a'])] 'S'

/-- A grammar with a terminal (`b`) on a left-hand side. -/
def gTermLhs : CFGrammar := CFGrammar.new ['a', 'b'] ['S']
  [('S', ['a']), ('b', ['a'])] 'S'

/-- A grammar whose rules mention the reserved `START` sentinel, driving
the recorded start state onto a state with a depth-2 reduce action. -/
def gDeep : CFGrammar := CFGrammar.new ['z', 'b', 'x'] ['S']
  [('S', ['z', 'b']), ('S', ['z', 'b', Char.ofNat 1, 'x'])] 'S'

/-- A sentinel-using grammar (all right-hand sides non-empty) whose
recorded start state carries a depth-2 reduce action on `END`. -/
def gDeepEmpty : CFGrammar := CFGrammar.new ['w', 'z', 'b'] ['S', '~']
  [('S', ['w', '~']), ('~', ['z', 'b']), ('~', ['z', 'b', Char.ofNat 1])] 'S'

/-- Extensional equivalence of action tables: equal lookups everywhere. -/
def transEquiv (t₁ t₂ : Transitions) : Prop :=
  ∀ s c, transGet t₁ s c = transGet t₂ s c

/-- The input segment `w[i..k]` (as used by the Earley chart
invariant). -/
def seg (w : List Char) (i k : Nat) : List Char := (w.take k).drop i

/-- The hypotheses on a (raw, already augmented) grammar value that every
grammar built by `CFGrammar.new` from loader-validated user input
satisfies: the start symbol is the `START` sentinel, its unique
production is recorded among the rules with a one-symbol right-hand side,
`END` is a terminal, and the reserved sentinels appear neither among the
user symbols nor inside rule bodies or left-hand sides. -/
structure Sane (g : CFGrammar) : Prop where
  hstart : g.start = START_RULE
  hmem : g.get_start_rule ∈ g.rules
  hlen : g.get_start_rule.2.length = 1
  hstartUnique : ∀ r ∈ g.rules, r.1 = START_RULE → r = g.get_start_rule
  hEndT : END_TERMINAL ∈ g.terminals
  hNoStartRhs : ∀ r ∈ g.rules, START_RULE ∉ r.2
  hNoEndRhs : ∀ r ∈ g.rules, END_TERMINAL ∉ r.2
  hNoEndN : END_TERMINAL ∉ g.non_terminals
  hNoEndLhs : ∀ r ∈ g.rules, r.1 ≠ END_TERMINAL

end Langram

namespace Langram

/-- The Earley chart invariant for one item of layer `k`: its origin is
at most `k`, its production is a grammar rule, and, when the dot is in
range, the consumed part of the right-hand side derives the input segment
between the origin and `k`. -/
def GoodItem (g : CFGrammar) (w : List Char) (k : Nat)
    (it : EarleySituation) : Prop :=
  it.prev_cnt ≤ k ∧ it.rule ∈ g.rules ∧
    (it.pos ≤ it.rule.2.length →
      Derives g (it.rule.2.take it.pos) (seg w it.prev_cnt k))

/-- The chart invariant: every layer's items are good for that layer. -/
def ChartInv (g : CFGrammar) (w : List Char) (chart : Chart) : Prop :=
  ∀ k, ∀ it ∈ chart.getD k [], GoodItem g w k it

/-- All layers from `m` on are empty. -/
def Dead (chart : Chart) (m : Nat) : Prop :=
  ∀ j, m ≤ j → chart.getD j [] = []

/-- Dots never run past the end of the production body. -/
def ChartPos (chart : Chart) : Prop :=
  ∀ k, ∀ it ∈ chart.getD k [], it.pos ≤ it.rule.2.length

/-- All layers are duplicate-free. -/
def ChartNodup (chart : Chart) : Prop :=
  ∀ k, (chart.getD k []).Nodup

/-- Keys are preserved by the row update map. -/
theorem rowSet_fst (c : Char) (a : LR1Action) (q : Char × LR1Action) :
    ((if q.1 == c then (q.1, a) else q) : Char × LR1Action).1 = q.1 := by
  by_cases h : q.1 == c <;> simp [h]

/-- Reading any cell of a row is unchanged by materializing a default. -/
theorem rowGet_rowEnsure (r : Row) (c c' : Char) :
    rowGet (rowEnsure r c) c' = rowGet r c' := by
  unfold rowEnsure
  by_cases h : (r.find? (fun q => q.1 == c)).isSome
  · simp [h]
  · simp only [h, if_false, Bool.false_eq_true]
    unfold rowGet
    rw [List.find?_append]
    cases hf : r.find? (fun q => q.1 == c') with
    | some v => simp [Option.or]
    | none =>
      simp only [Option.none_or]
      by_cases hc : c == c'
      · simp [List.find?, hc]
      · simp [List.find?, hc]

/-- Row lookup after an in-place cell update. -/
theorem rowGet_rowSetMap (r : Row) (c : Char) (a : LR1Action) (c' : Char) :
    rowGet (r.map (fun q => if q.1 == c then (q.1, a) else q)) c' =
      if c' = c ∧ (r.find? (fun q => q.1 == c')).isSome then a
      else rowGet r c' := by
  unfold rowGet
  rw [List.find?_map]
  have hp : ((fun q : Char × LR1Action => q.1 == c') ∘
      (fun q => if q.1 == c then (q.1, a) else q)) =
      (fun q : Char × LR1Action => q.1 == c') := by
    funext q
    simp only [Function.comp]
    by_cases h : q.1 == c <;> simp [h]
  rw [hp]
  cases hf : r.find? (fun q => q.1 == c') with
  | none => simp [hf]
  | some v =>
    have hv : v.1 == c' := by
      have := List.find?_some hf
      exact this
    simp only [Option.map_some]
    by_cases hc : c' = c
    · subst hc
      simp [hv, eq_of_beq hv]
    · have hvc : v.1 ≠ c := by
        rw [eq_of_beq hv]
        exact hc
      simp [hvc, hc]


/-- Reading any cell is unchanged by materializing defaults. -/
theorem transGet_transEnsure (t : Transitions) (s : Nat) (c : Char)
    (s' : Nat) (c' : Char) :
    transGet (transEnsure t s c) s' c' = transGet t s' c' := by
  unfold transEnsure
  cases ht : t.find? (fun p => p.1 == s) with
  | some row =>
    unfold transGet
    rw [List.find?_map]
    have hp : ((fun p : Nat × Row => p.1 == s') ∘
        (fun p => if p.1 == s then (p.1, rowEnsure p.2 c) else p)) =
        (fun p : Nat × Row => p.1 == s') := by
      funext p
      simp only [Function.comp]
      by_cases h : p.1 == s <;> simp [h]
    rw [hp]
    cases hf : t.find? (fun p => p.1 == s') with
    | none => simp
    | some v =>
      simp only [Option.map_some']
      by_cases h : v.1 = s
      · simp [h, rowGet_rowEnsure]
      · simp [h]
  | none =>
    unfold transGet
    rw [List.find?_append]
    cases hf : t.find? (fun p => p.1 == s') with
    | some v => simp [Option.or]
    | none =>
      simp only [Option.none_or]
      by_cases hs : s == s'
      · simp only [List.find?, hs]
        unfold rowGet
        by_cases hcc : c == c' <;> simp [List.find?, hcc]
      · simp [List.find?, hs]

/-- A cell write does not affect other cells. -/
theorem transGet_transSet_other (t : Transitions) (s : Nat) (c : Char)
    (a : LR1Action) (s' : Nat) (c' : Char) (h : s' ≠ s ∨ c' ≠ c) :
    transGet (transSet t s c a) s' c' = transGet t s' c' := by
  unfold transSet transGet
  rw [List.find?_map]
  have hp : ((fun p : Nat × Row => p.1 == s') ∘
      (fun p => if p.1 == s then
        (p.1, p.2.map (fun q => if q.1 == c then (q.1, a) else q)) else p)) =
      (fun p : Nat × Row => p.1 == s') := by
    funext p
    simp only [Function.comp]
    by_cases hh : p.1 == s <;> simp [hh]
  rw [hp]
  cases hf : t.find? (fun p => p.1 == s') with
  | none => simp
  | some v =>
    simp only [Option.map_some']
    by_cases hv : v.1 = s
    · simp only [hv, beq_self_eq_true, if_true]
      rw [rowGet_rowSetMap]
      have hvs : v.1 = s' := by
        have := List.find?_some hf
        simpa using this
      have hss : s' = s := by rw [← hvs, hv]
      rcases h with h | h
      · exact absurd hss h
      · simp [h]
    · simp [hv]

/-- After materializing the defaults, the row and the cell exist. -/
theorem transEnsure_cell (t : Transitions) (s : Nat) (c : Char) :
    ∃ v, (transEnsure t s c).find? (fun p => p.1 == s) = some v ∧
      (v.2.find? (fun q => q.1 == c)).isSome := by
  unfold transEnsure
  cases ht : t.find? (fun p => p.1 == s) with
  | some row =>
    rw [List.find?_map]
    have hp : ((fun p : Nat × Row => p.1 == s) ∘
        (fun p => if p.1 == s then (p.1, rowEnsure p.2 c) else p)) =
        (fun p : Nat × Row => p.1 == s) := by
      funext p
      simp only [Function.comp]
      by_cases h : p.1 == s <;> simp [h]
    rw [hp, ht]
    have hr : row.1 = s := by
      have := List.find?_some ht
      simpa using this
    refine ⟨(row.1, rowEnsure row.2 c), by simp [hr, Option.map_some'], ?_⟩
    unfold rowEnsure
    by_cases h : (row.2.find? (fun q => q.1 == c)).isSome
    · simp [h]
    · simp only [h, if_false, Bool.false_eq_true]
      rw [List.find?_append]
      cases hf : row.2.find? (fun q => q.1 == c) with
      | some v => simp [hf] at h
      | none => simp [List.find?]
  | none =>
    rw [List.find?_append, ht]
    refine ⟨(s, [(c, LR1Action.NoAction)]), by simp [List.find?], ?_⟩
    simp [List.find?]

/-- Writing a present cell makes the lookup return the written action. -/
theorem transGet_transSet_self (t : Transitions) (s : Nat) (c : Char)
    (a : LR1Action)
    (hcell : ∃ v, t.find? (fun p => p.1 == s) = some v ∧
      (v.2.find? (fun q => q.1 == c)).isSome) :
    transGet (transSet t s c a) s c = a := by
  obtain ⟨v, hv, hvc⟩ := hcell
  unfold transSet transGet
  rw [List.find?_map]
  have hp : ((fun p : Nat × Row => p.1 == s) ∘
      (fun p => if p.1 == s then
        (p.1, p.2.map (fun q => if q.1 == c then (q.1, a) else q)) else p)) =
      (fun p : Nat × Row => p.1 == s) := by
    funext p
    simp only [Function.comp]
    by_cases hh : p.1 == s <;> simp [hh]
  rw [hp, hv]
  have hv1 : v.1 = s := by
    have := List.find?_some hv
    simpa using this
  simp only [Option.map_some', hv1, beq_self_eq_true, if_true]
  rw [rowGet_rowSetMap]
  simp [hvc]

/-- A successful `add_transition` is an ensure-then-set. -/
theorem add_transition_ok (t : Transitions) (s : Nat) (c : Char)
    (a : LR1Action) (t' : Transitions)
    (h : add_transition t s c a = Except.ok t') :
    t' = transSet (transEnsure t s c) s c a := by
  simp only [add_transition] at h
  split at h
  · injection h with h2
    exact h2.symm
  · exact Except.noConfusion h

/-- A successful `add_transition` sets its own cell. -/
theorem add_transition_get_self (t : Transitions) (s : Nat) (c : Char)
    (a : LR1Action) (t' : Transitions)
    (h : add_transition t s c a = Except.ok t') :
    transGet t' s c = a := by
  rw [add_transition_ok t s c a t' h]
  exact transGet_transSet_self _ s c a (transEnsure_cell t s c)

/-- A successful `add_transition` leaves every other cell unchanged. -/
theorem add_transition_get_other (t : Transitions) (s : Nat) (c : Char)
    (a : LR1Action) (t' : Transitions)
    (h : add_transition t s c a = Except.ok t')
    (s' : Nat) (c' : Char) (hne : s' ≠ s ∨ c' ≠ c) :
    transGet t' s' c' = transGet t s' c' := by
  rw [add_transition_ok t s c a t' h]
  rw [transGet_transSet_other _ s c a s' c' hne]
  exact transGet_transEnsure t s c s' c'


/-- C3 (counterexample): the word `"S"` contains a character that is not
in the terminal set of the grammar `S → a`, yet the fitted LR(1)
recognizer returns `true` on it (the non-terminal GOTO row doubles as a
shift on the non-terminal character). -/
theorem C3_counterexample :
    ('S' ∈ gUnit.terminals → False) ∧
    lr1Recognize gUnit ['S'] 100 = some (DriveRes.ret true) := by
  refine ⟨by decide, by decide⟩

/-- C4 (counterexample): the grammar with productions `S → a` and
`b → a` has the terminal `b` as a left-hand side, yet the LR(1) `fit`
succeeds: unlike the Earley engine, `LR1Parser::fit` performs no
left-hand-side validation. -/
theorem C4_counterexample :
    ('b', ['a']) ∈ gTermLhs.rules ∧ ('b' ∈ gTermLhs.non_terminals → False) ∧
    'b' ∈ gTermLhs.terminals ∧ (LR1Parser.new.fit gTermLhs).isOk = true := by
  refine ⟨by decide, by decide, by decide, by decide⟩

/-- C5 (code evaluated at the failing input): fitting the grammar
`S → zb | zb〈START〉x` succeeds, and recognizing the word `"x"` reaches
the `Reduce(2, S)` action with a single state on the stack, so the
driver's `drain` underflows: the embedded run ends in the panic outcome
instead of returning a boolean. -/
theorem C5_theorem :
    (LR1Parser.new.fit gDeep).isOk = true ∧
    lr1Recognize gDeep ['x'] 100 = some DriveRes.panicked := by
  refine ⟨by decide, by decide⟩

/-- C6 (counterexample): a fitted grammar all of whose right-hand sides
are non-empty on which `recognize` of the empty input does not return
`false`: the recorded start state carries a `Reduce(2, ~)` action on
`END`, and the driver's state-stack drain underflows (a panic, not
`false`). -/
theorem C6_counterexample :
    (∀ r ∈ gDeepEmpty.rules, r.2 ≠ []) ∧
    (LR1Parser.new.fit gDeepEmpty).isOk = true ∧
    lr1Recognize gDeepEmpty [] 100 = some DriveRes.panicked := by
  refine ⟨by decide, by decide, by decide⟩

end Langram

namespace Langram

/-- `transEquiv` is preserved by materializing defaults. -/
theorem transEquiv_transEnsure (t₁ t₂ : Transitions) (s : Nat) (c : Char)
    (h : transEquiv t₁ t₂) : transEquiv (transEnsure t₁ s c) t₂ := by
  intro s' c'
  rw [transGet_transEnsure]
  exact h s' c'

/-- The driver only materializes defaults: the table after a run is
lookup-equivalent to the table before it. -/
theorem lrRun_table_equiv (fuel : Nat) : ∀ (t : Transitions)
    (q : List Nat) (s : List Char), transEquiv (lrRun t q s fuel).1 t := by
  induction fuel with
  | zero => intro t q s s' c'; rfl
  | succ n ih =>
    intro t q s
    match q, s with
    | [], _ => intro s' c'; rfl
    | _ :: _, [] => intro s' c'; rfl
    | st :: qrest, a :: srest =>
      show transEquiv (match transGet (transEnsure t st a) st a with
        | LR1Action.Shift tgt =>
            lrRun (transEnsure t st a) (tgt :: st :: qrest) srest n
        | LR1Action.Reduce count symbol =>
            if (st :: qrest).length < count then
              (transEnsure t st a, some DriveRes.panicked)
            else lrRun (transEnsure t st a) ((st :: qrest).drop count)
              (symbol :: a :: srest) n
        | LR1Action.Accept => (transEnsure t st a, some (DriveRes.ret true))
        | LR1Action.NoAction =>
            (transEnsure t st a, some (DriveRes.ret false))).1 t
      have hens : transEquiv (transEnsure t st a) t :=
        transEquiv_transEnsure t t st a (fun _ _ => rfl)
      cases transGet (transEnsure t st a) st a with
      | Shift tgt =>
        intro s' c'
        rw [ih (transEnsure t st a) (tgt :: st :: qrest) srest s' c']
        exact hens s' c'
      | Reduce count symbol =>
        by_cases hlen : (st :: qrest).length < count
        · simp only [hlen, if_true]
          exact hens
        · simp only [hlen, if_false]
          intro s' c'
          rw [ih (transEnsure t st a) ((st :: qrest).drop count)
            (symbol :: a :: srest) s' c']
          exact hens s' c'
      | Accept => exact hens
      | NoAction => exact hens

/-- Lookup-equivalent tables drive identical runs. -/
theorem lrRun_res_congr (fuel : Nat) : ∀ (t₁ t₂ : Transitions)
    (q : List Nat) (s : List Char), transEquiv t₁ t₂ →
    (lrRun t₁ q s fuel).2 = (lrRun t₂ q s fuel).2 := by
  induction fuel with
  | zero => intro t₁ t₂ q s _; rfl
  | succ n ih =>
    intro t₁ t₂ q s h
    match q, s with
    | [], _ => rfl
    | _ :: _, [] => rfl
    | st :: qrest, a :: srest =>
      have h1 : transEquiv (transEnsure t₁ st a) (transEnsure t₂ st a) := by
        intro s' c'
        rw [transGet_transEnsure, transGet_transEnsure]
        exact h s' c'
      have hget : transGet (transEnsure t₁ st a) st a =
          transGet (transEnsure t₂ st a) st a := h1 st a
      show (match transGet (transEnsure t₁ st a) st a with
        | LR1Action.Shift tgt =>
            lrRun (transEnsure t₁ st a) (tgt :: st :: qrest) srest n
        | LR1Action.Reduce count symbol =>
            if (st :: qrest).length < count then
              (transEnsure t₁ st a, some DriveRes.panicked)
            else lrRun (transEnsure t₁ st a) ((st :: qrest).drop count)
              (symbol :: a :: srest) n
        | LR1Action.Accept => (transEnsure t₁ st a, some (DriveRes.ret true))
        | LR1Action.NoAction =>
            (transEnsure t₁ st a, some (DriveRes.ret false))).2 =
        (match transGet (transEnsure t₂ st a) st a with
        | LR1Action.Shift tgt =>
            lrRun (transEnsure t₂ st a) (tgt :: st :: qrest) srest n
        | LR1Action.Reduce count symbol =>
            if (st :: qrest).length < count then
              (transEnsure t₂ st a, some DriveRes.panicked)
            else lrRun (transEnsure t₂ st a) ((st :: qrest).drop count)
              (symbol :: a :: srest) n
        | LR1Action.Accept => (transEnsure t₂ st a, some (DriveRes.ret true))
        | LR1Action.NoAction =>
            (transEnsure t₂ st a, some (DriveRes.ret false))).2
      rw [← hget]
      cases transGet (transEnsure t₁ st a) st a with
      | Shift tgt => exact ih _ _ _ _ h1
      | Reduce count symbol =>
        dsimp only
        by_cases hlen : (st :: qrest).length < count
        · rw [if_pos hlen, if_pos hlen]
        · rw [if_neg hlen, if_neg hlen]
          exact ih _ _ _ _ h1
      | Accept => rfl
      | NoAction => rfl

/-- C9: calling `recognize` twice in a row with the same word yields the
same boolean both times, for both engines: the Earley parser rebuilds its
chart from the stored grammar alone, and the LR(1) driver's `or_default`
insertions write only `NoAction` defaults, which change no lookup. -/
theorem C9_theorem (p : EarleyParser) (q : LR1Parser) (word : List Char)
    (fuel : Nat) :
    ((p.predict word).1.predict word).2 = (p.predict word).2 ∧
    ((q.predictRun word fuel).1.predictRun word fuel).2 =
      (q.predictRun word fuel).2 := by
  constructor
  · cases hg : p.grammar with
    | none => simp [EarleyParser.predict, hg]
    | some g => simp [EarleyParser.predict, hg]
  · unfold LR1Parser.predictRun
    simp only
    apply lrRun_res_congr
    exact lrRun_table_equiv fuel q.transitions [q.start]
      (word ++ [END_TERMINAL])

/-- C10: a freshly constructed `LR1Parser` (empty table, start state 0)
returns `false` from `predict` on every input word: the very first lookup
materializes a `NoAction` default and the driver rejects. -/
theorem C10_theorem (word : List Char) (fuel : Nat) :
    ((LR1Parser.new).predictRun word (fuel + 1)).2 =
      some (DriveRes.ret false) := by
  unfold LR1Parser.predictRun LR1Parser.new
  cases word with
  | nil =>
    simp [lrRun, transEnsure, transGet, rowGet, List.find?]
  | cons c rest =>
    simp [lrRun, transEnsure, transGet, rowGet, List.find?]


end Langram

namespace Langram
/-- C4 (amended): the Earley `fit` succeeds exactly when every
production's left-hand side is in the non-terminal set (otherwise it
returns the not-context-free error); the LR(1) `fit` performs no such
validation (see the counterexample for this claim). -/
theorem C4_amended (g : CFGrammar) :
    (EarleyParser.new.fit g).isOk = true ↔
      ∀ r ∈ g.rules, r.1 ∈ g.non_terminals := by
  have hiff : (EarleyParser.check_grammar g = true) ↔
      ∀ r ∈ g.rules, r.1 ∈ g.non_terminals := by
    unfold EarleyParser.check_grammar
    rw [List.all_eq_true]
    constructor
    · intro h r hr
      simpa using h r hr
    · intro h r hr
      simpa using h r hr
  unfold EarleyParser.fit
  by_cases h : EarleyParser.check_grammar g = true
  · simp only [h, if_true]
    exact ⟨fun _ => hiff.mp h, fun _ => rfl⟩
  · simp only [h, if_false]
    constructor
    · intro hh
      exact absurd hh (by simp [Except.isOk, Except.toBool])
    · intro hh
      exact absurd (hiff.mpr hh) h

end Langram

namespace Langram
/-- Unfolding of `dfs` on a non-terminal head symbol, phrased with
`dfsStep`. -/
theorem dfs_cons (g : CFGrammar) (f : Nat) (visited : List CFRule)
    (symbol : Char) (rest : List Char)
    (h : g.terminals.contains symbol = false) :
    dfs g (f + 1) visited (symbol :: rest) =
      (if ((g.get_vec symbol).foldl (dfsStep g f symbol)
            (visited, [])).2.isEmpty
       then dfs g f ((g.get_vec symbol).foldl (dfsStep g f symbol)
            (visited, [])).1 rest
       else (g.get_vec symbol).foldl (dfsStep g f symbol) (visited, [])) := by
  show (if g.terminals.contains symbol then (visited, [symbol])
    else
      let vf := (g.get_vec symbol).foldl (dfsStep g f symbol) (visited, [])
      if vf.2.isEmpty then dfs g f vf.1 rest else vf) = _
  rw [h]
  simp only [Bool.false_eq_true, if_false]

/-- Right-hand sides stored under a key are productions of the grammar. -/
theorem get_vec_mem (g : CFGrammar) (symbol : Char) :
    ∀ rr ∈ g.get_vec symbol, (symbol, rr) ∈ g.rules := by
  intro rr hrr
  unfold CFGrammar.get_vec at hrr
  obtain ⟨r, hr, hrr2⟩ := List.mem_map.mp hrr
  have hmf := List.mem_filter.mp hr
  have hfst : r.1 = symbol := by simpa using hmf.2
  have hre : r = (symbol, rr) := by
    cases r
    simp only [Prod.mk.injEq]
    exact ⟨hfst, hrr2⟩
  rw [← hre]
  exact hmf.1

/-- The visited set returned by `dfs` extends its input and keeps the
invariants: no duplicates, and every entry is a production. -/
theorem dfs_visited (g : CFGrammar) : ∀ (fuel : Nat) (X : List CFRule)
    (l : List Char), X.Nodup → (∀ r ∈ X, r ∈ g.rules) →
    (dfs g fuel X l).1.Nodup ∧ (∀ r ∈ (dfs g fuel X l).1, r ∈ g.rules) ∧
      ∃ ext, (dfs g fuel X l).1 = X ++ ext := by
  intro fuel
  induction fuel with
  | zero => intro X l h1 h2; exact ⟨h1, h2, [], by simp [dfs]⟩
  | succ f ih =>
    intro X l h1 h2
    match l with
    | [] => exact ⟨h1, h2, [], by simp [dfs]⟩
    | symbol :: rest =>
      by_cases hterm : g.terminals.contains symbol
      · have hterm2 : symbol ∈ g.terminals := by simpa using hterm
        refine ⟨?_, ?_, [], ?_⟩
        · simp [dfs, hterm2, h1]
        · intro r hr
          apply h2 r
          simpa [dfs, hterm2] using hr
        · simp [dfs, hterm2]
      · have hterm' : g.terminals.contains symbol = false :=
          Bool.not_eq_true _ ▸ by simpa using hterm
        have hfold : ∀ (rhss : List (List Char)),
            (∀ rr ∈ rhss, (symbol, rr) ∈ g.rules) →
            ∀ (acc : List CFRule × List Char), acc.1.Nodup →
            (∀ r ∈ acc.1, r ∈ g.rules) →
            (rhss.foldl (dfsStep g f symbol) acc).1.Nodup ∧
            (∀ r ∈ (rhss.foldl (dfsStep g f symbol) acc).1, r ∈ g.rules) ∧
            ∃ ext, (rhss.foldl (dfsStep g f symbol) acc).1 = acc.1 ++ ext := by
          intro rhss
          induction rhss with
          | nil => intro _ acc ha1 ha2; exact ⟨ha1, ha2, [], by simp⟩
          | cons rr more ihr =>
            intro hin acc ha1 ha2
            simp only [List.foldl_cons]
            by_cases hmem : (symbol, rr) ∈ acc.1
            · rw [show dfsStep g f symbol acc rr = acc by
                unfold dfsStep; rw [if_pos hmem]]
              exact ihr (fun x hx => hin x (List.mem_cons_of_mem _ hx)) acc
                ha1 ha2
            · have hnew1 : (acc.1 ++ [(symbol, rr)]).Nodup := by
                rw [List.nodup_append]
                refine ⟨ha1, List.nodup_singleton _, ?_⟩
                intro a haa hab
                rw [List.mem_singleton.mp hab] at haa
                exact hmem haa
              have hnew2 : ∀ r ∈ acc.1 ++ [(symbol, rr)], r ∈ g.rules := by
                intro r hr
                rcases List.mem_append.mp hr with hr | hr
                · exact ha2 r hr
                · rw [List.mem_singleton.mp hr]
                  exact hin rr (List.mem_cons_self _ _)
              obtain ⟨hd1, hd2, ext, hext⟩ :=
                ih (acc.1 ++ [(symbol, rr)]) rr hnew1 hnew2
              have hstep : dfsStep g f symbol acc rr =
                  ((dfs g f (acc.1 ++ [(symbol, rr)]) rr).1,
                   acc.2 ++ (dfs g f (acc.1 ++ [(symbol, rr)]) rr).2) := by
                unfold dfsStep
                rw [if_neg hmem]
              rw [hstep]
              obtain ⟨hr1, hr2, ext2, hext2⟩ :=
                ihr (fun x hx => hin x (List.mem_cons_of_mem _ hx))
                  ((dfs g f (acc.1 ++ [(symbol, rr)]) rr).1,
                   acc.2 ++ (dfs g f (acc.1 ++ [(symbol, rr)]) rr).2) hd1 hd2
              refine ⟨hr1, hr2, (symbol, rr) :: (ext ++ ext2), ?_⟩
              rw [hext2]
              dsimp only
              rw [hext]
              simp
        obtain ⟨hv1, hv2, ext, hext⟩ :=
          hfold (g.get_vec symbol) (get_vec_mem g symbol) (X, []) h1 h2
        rw [dfs_cons g f X symbol rest hterm']
        by_cases hemp : ((g.get_vec symbol).foldl (dfsStep g f symbol)
            (X, [])).2.isEmpty
        · rw [if_pos hemp]
          obtain ⟨ha1, ha2, ext2, hext2⟩ := ih _ rest hv1 hv2
          refine ⟨ha1, ha2, ?_⟩
          rw [hext2, hext]
          exact ⟨ext ++ ext2, by simp⟩
        · rw [if_neg hemp]
          exact ⟨hv1, hv2, ext, hext⟩

end Langram

namespace Langram
/-- Every right-hand side is bounded by `rhsMax`. -/
theorem rhsMax_ge (g : CFGrammar) : ∀ r ∈ g.rules, r.2.length ≤ rhsMax g := by
  unfold rhsMax
  suffices h : ∀ (l : List CFRule) (init : Nat),
      init ≤ l.foldl (fun m r => max m r.2.length) init ∧
      ∀ r ∈ l, r.2.length ≤ l.foldl (fun m r => max m r.2.length) init by
    intro r hr
    exact (h g.rules 0).2 r hr
  intro l
  induction l with
  | nil => intro init; exact ⟨le_refl _, by simp⟩
  | cons x xs ihl =>
    intro init
    simp only [List.foldl_cons]
    constructor
    · calc init ≤ max init x.2.length := le_max_left _ _
        _ ≤ _ := (ihl (max init x.2.length)).1
    · intro r hr
      rcases List.mem_cons.mp hr with hr | hr
      · subst hr
        calc r.2.length ≤ max init r.2.length := le_max_right _ _
          _ ≤ _ := (ihl _).1
      · exact (ihl _).2 r hr

/-- A duplicate-free list contained in another is no longer than it. -/
theorem nodup_subset_length_le {α : Type} [DecidableEq α] (X Y : List α)
    (h1 : X.Nodup) (h2 : ∀ r ∈ X, r ∈ Y) : X.length ≤ Y.length := by
  calc X.length = X.toFinset.card := (List.toFinset_card_of_nodup h1).symm
    _ ≤ Y.toFinset.card := Finset.card_le_card (by
        intro a ha
        rw [List.mem_toFinset]
        exact h2 a (List.mem_toFinset.mp ha))
    _ ≤ Y.length := Y.toFinset_card_le

/-- The visited set of the production fold of `dfs` extends its input and
keeps the invariants. -/
theorem dfsFold_visited (g : CFGrammar) (f : Nat) (symbol : Char) :
    ∀ (rhss : List (List Char)), (∀ rr ∈ rhss, (symbol, rr) ∈ g.rules) →
    ∀ (acc : List CFRule × List Char), acc.1.Nodup →
    (∀ r ∈ acc.1, r ∈ g.rules) →
    (rhss.foldl (dfsStep g f symbol) acc).1.Nodup ∧
    (∀ r ∈ (rhss.foldl (dfsStep g f symbol) acc).1, r ∈ g.rules) ∧
    ∃ ext, (rhss.foldl (dfsStep g f symbol) acc).1 = acc.1 ++ ext := by
  intro rhss
  induction rhss with
  | nil => intro _ acc ha1 ha2; exact ⟨ha1, ha2, [], by simp⟩
  | cons rr more ihr =>
    intro hin acc ha1 ha2
    simp only [List.foldl_cons]
    by_cases hmem : (symbol, rr) ∈ acc.1
    · rw [show dfsStep g f symbol acc rr = acc by
        unfold dfsStep; rw [if_pos hmem]]
      exact ihr (fun x hx => hin x (List.mem_cons_of_mem _ hx)) acc ha1 ha2
    · have hnew1 : (acc.1 ++ [(symbol, rr)]).Nodup := by
        rw [List.nodup_append]
        refine ⟨ha1, List.nodup_singleton _, ?_⟩
        intro a haa hab
        rw [List.mem_singleton.mp hab] at haa
        exact hmem haa
      have hnew2 : ∀ r ∈ acc.1 ++ [(symbol, rr)], r ∈ g.rules := by
        intro r hr
        rcases List.mem_append.mp hr with hr | hr
        · exact ha2 r hr
        · rw [List.mem_singleton.mp hr]
          exact hin rr (List.mem_cons_self _ _)
      obtain ⟨hd1, hd2, ext, hext⟩ :=
        dfs_visited g f (acc.1 ++ [(symbol, rr)]) rr hnew1 hnew2
      have hstep : dfsStep g f symbol acc rr =
          ((dfs g f (acc.1 ++ [(symbol, rr)]) rr).1,
           acc.2 ++ (dfs g f (acc.1 ++ [(symbol, rr)]) rr).2) := by
        unfold dfsStep
        rw [if_neg hmem]
      rw [hstep]
      obtain ⟨hr1, hr2, ext2, hext2⟩ :=
        ihr (fun x hx => hin x (List.mem_cons_of_mem _ hx))
          ((dfs g f (acc.1 ++ [(symbol, rr)]) rr).1,
           acc.2 ++ (dfs g f (acc.1 ++ [(symbol, rr)]) rr).2) hd1 hd2
      refine ⟨hr1, hr2, (symbol, rr) :: (ext ++ ext2), ?_⟩
      rw [hext2]
      dsimp only
      rw [hext]
      simp

/-- The production fold of `dfs` is unchanged by raising the fuel once it
dominates the bound derived from the not-yet-visited productions. -/
theorem dfsFold_stable (g : CFGrammar) (f : Nat) (symbol : Char)
    (ihf : ∀ (X : List CFRule) (l : List Char), X.Nodup →
      (∀ r ∈ X, r ∈ g.rules) →
      (g.rules.length - X.length) * (rhsMax g + 2) + l.length + 1 ≤ f →
      dfs g f X l = dfs g (f + 1) X l) :
    ∀ (rhss : List (List Char)),
    (∀ rr ∈ rhss, (symbol, rr) ∈ g.rules) →
    ∀ (acc : List CFRule × List Char), acc.1.Nodup →
    (∀ r ∈ acc.1, r ∈ g.rules) →
    (g.rules.length - acc.1.length) * (rhsMax g + 2) ≤ f + 1 →
    rhss.foldl (dfsStep g f symbol) acc =
      rhss.foldl (dfsStep g (f + 1) symbol) acc := by
  intro rhss
  induction rhss with
  | nil => intro _ acc _ _ _; rfl
  | cons rr more ihr =>
    intro hin acc ha1 ha2 hbound
    simp only [List.foldl_cons]
    by_cases hmem : (symbol, rr) ∈ acc.1
    · have hs1 : dfsStep g f symbol acc rr = acc := by
        unfold dfsStep; rw [if_pos hmem]
      have hs2 : dfsStep g (f + 1) symbol acc rr = acc := by
        unfold dfsStep; rw [if_pos hmem]
      rw [hs1, hs2]
      exact ihr (fun x hx => hin x (List.mem_cons_of_mem _ hx)) acc ha1 ha2
        hbound
    · have hXmem : (symbol, rr) ∈ g.rules := hin rr (List.mem_cons_self _ _)
      have hnew1 : (acc.1 ++ [(symbol, rr)]).Nodup := by
        rw [List.nodup_append]
        refine ⟨ha1, List.nodup_singleton _, ?_⟩
        intro a haa hab
        rw [List.mem_singleton.mp hab] at haa
        exact hmem haa
      have hnew2 : ∀ r ∈ acc.1 ++ [(symbol, rr)], r ∈ g.rules := by
        intro r hr
        rcases List.mem_append.mp hr with hr | hr
        · exact ha2 r hr
        · rw [List.mem_singleton.mp hr]
          exact hXmem
      have hlenle : acc.1.length + 1 ≤ g.rules.length := by
        have := nodup_subset_length_le (acc.1 ++ [(symbol, rr)]) g.rules
          hnew1 hnew2
        simpa using this
      have hrrlen : rr.length ≤ rhsMax g := rhsMax_ge g _ hXmem
      have hcall : dfs g f (acc.1 ++ [(symbol, rr)]) rr =
          dfs g (f + 1) (acc.1 ++ [(symbol, rr)]) rr := by
        apply ihf _ _ hnew1 hnew2
        have hlen' : (acc.1 ++ [(symbol, rr)]).length = acc.1.length + 1 := by
          simp
        rw [hlen']
        have hu : 1 ≤ g.rules.length - acc.1.length := by omega
        obtain ⟨k, hk⟩ := Nat.exists_eq_add_of_le hu
        have hsub : g.rules.length - (acc.1.length + 1) = k := by omega
        rw [hsub]
        have h2 : (1 + k) * (rhsMax g + 2) =
            k * (rhsMax g + 2) + (rhsMax g + 2) := by ring
        have hble : k * (rhsMax g + 2) + (rhsMax g + 2) ≤ f + 1 := by
          rw [← h2, ← hk]
          exact hbound
        generalize k * (rhsMax g + 2) = M at hble ⊢
        omega
      have hstep1 : dfsStep g f symbol acc rr =
          ((dfs g f (acc.1 ++ [(symbol, rr)]) rr).1,
           acc.2 ++ (dfs g f (acc.1 ++ [(symbol, rr)]) rr).2) := by
        unfold dfsStep; rw [if_neg hmem]
      have hstep2 : dfsStep g (f + 1) symbol acc rr =
          ((dfs g f (acc.1 ++ [(symbol, rr)]) rr).1,
           acc.2 ++ (dfs g f (acc.1 ++ [(symbol, rr)]) rr).2) := by
        unfold dfsStep; rw [if_neg hmem, ← hcall]
      rw [hstep1, hstep2]
      obtain ⟨hd1, hd2, ext, hext⟩ := dfs_visited g f (acc.1 ++ [(symbol, rr)])
        rr hnew1 hnew2
      apply ihr (fun x hx => hin x (List.mem_cons_of_mem _ hx))
        ((dfs g f (acc.1 ++ [(symbol, rr)]) rr).1,
         acc.2 ++ (dfs g f (acc.1 ++ [(symbol, rr)]) rr).2) hd1 hd2
      have hge : acc.1.length ≤
          (dfs g f (acc.1 ++ [(symbol, rr)]) rr).1.length := by
        rw [hext]
        simp only [List.length_append]
        omega
      calc (g.rules.length -
            (dfs g f (acc.1 ++ [(symbol, rr)]) rr).1.length) *
            (rhsMax g + 2) ≤
          (g.rules.length - acc.1.length) * (rhsMax g + 2) :=
            Nat.mul_le_mul_right _ (Nat.sub_le_sub_left hge _)
        _ ≤ f + 1 := hbound

/-- Raising the fuel past the stabilization bound does not change `dfs`:
the recursion needs only boundedly many steps because each descent into a
production records it in the visited set. -/
theorem dfs_stable (g : CFGrammar) : ∀ (fuel : Nat) (X : List CFRule)
    (l : List Char), X.Nodup → (∀ r ∈ X, r ∈ g.rules) →
    (g.rules.length - X.length) * (rhsMax g + 2) + l.length + 1 ≤ fuel →
    dfs g fuel X l = dfs g (fuel + 1) X l := by
  intro fuel
  induction fuel with
  | zero => intro X l _ _ hb; omega
  | succ f ihf =>
    intro X l h1 h2 hb
    match l with
    | [] => simp [dfs]
    | symbol :: rest =>
      by_cases hterm : g.terminals.contains symbol
      · have hterm2 : symbol ∈ g.terminals := by simpa using hterm
        simp [dfs, hterm2]
      · have hterm' : g.terminals.contains symbol = false := by
          simpa using hterm
        rw [dfs_cons g f X symbol rest hterm',
          dfs_cons g (f + 1) X symbol rest hterm']
        have hboundf : (g.rules.length - X.length) * (rhsMax g + 2) ≤
            f + 1 := by
          simp only [List.length_cons] at hb
          generalize (g.rules.length - X.length) * (rhsMax g + 2) = M at hb ⊢
          omega
        have hfoldeq : (g.get_vec symbol).foldl (dfsStep g f symbol)
            (X, []) = (g.get_vec symbol).foldl (dfsStep g (f + 1) symbol)
            (X, []) :=
          dfsFold_stable g f symbol ihf (g.get_vec symbol)
            (get_vec_mem g symbol) (X, []) h1 h2 hboundf
        rw [← hfoldeq]
        by_cases hemp : ((g.get_vec symbol).foldl (dfsStep g f symbol)
            (X, [])).2.isEmpty
        · rw [if_pos hemp, if_pos hemp]
          obtain ⟨hv1, hv2, ext, hext⟩ := dfsFold_visited g f symbol
            (g.get_vec symbol) (get_vec_mem g symbol) (X, []) h1 h2
          apply ihf _ _ hv1 hv2
          have hge : X.length ≤ ((g.get_vec symbol).foldl
              (dfsStep g f symbol) (X, [])).1.length := by
            rw [hext]
            simp
          have hmono : (g.rules.length - ((g.get_vec symbol).foldl
              (dfsStep g f symbol) (X, [])).1.length) * (rhsMax g + 2) ≤
              (g.rules.length - X.length) * (rhsMax g + 2) :=
            Nat.mul_le_mul_right _ (Nat.sub_le_sub_left hge _)
          simp only [List.length_cons] at hb
          generalize (g.rules.length - ((g.get_vec symbol).foldl
              (dfsStep g f symbol) (X, [])).1.length) * (rhsMax g + 2) = B
            at hmono ⊢
          generalize (g.rules.length - X.length) * (rhsMax g + 2) = A
            at hmono hb
          omega
        · rw [if_neg hemp, if_neg hemp]

/-- C8: the FIRST computation (`get_first` / `dfs`) terminates for every
grammar and every symbol string, including left-recursive grammars: the
fueled embedding stabilizes once the fuel exceeds a bound derived from
the number of productions, because each production is descended into at
most once via the visited set. -/
theorem C8_theorem (g : CFGrammar) (lookup : List Char) (k : Nat) :
    dfs g ((g.rules.length + 1) * (rhsMax g + 2) + lookup.length + k) []
      lookup =
    dfs g ((g.rules.length + 1) * (rhsMax g + 2) + lookup.length) []
      lookup := by
  induction k with
  | zero => rfl
  | succ n ihn =>
    rw [← ihn]
    have hbd : (g.rules.length - ([] : List CFRule).length) *
        (rhsMax g + 2) + lookup.length + 1 ≤
        (g.rules.length + 1) * (rhsMax g + 2) + lookup.length + n := by
      simp only [List.length_nil, Nat.sub_zero]
      have hexp : (g.rules.length + 1) * (rhsMax g + 2) =
          g.rules.length * (rhsMax g + 2) + (rhsMax g + 2) := by ring
      rw [hexp]
      generalize g.rules.length * (rhsMax g + 2) = M
      omega
    have h := dfs_stable g
      ((g.rules.length + 1) * (rhsMax g + 2) + lookup.length + n) [] lookup
      List.nodup_nil (by simp) hbd
    exact h.symm

end Langram

namespace Langram
/-- Membership after a guarded insert. -/
theorem mem_insertSit (x y : EarleySituation) (s : List EarleySituation) :
    y ∈ insertSit x s ↔ y ∈ s ∨ y = x := by
  unfold insertSit
  by_cases h : x ∈ s
  · simp only [h, if_true]
    constructor
    · exact Or.inl
    · rintro (hy | rfl)
      exacts [hy, h]
  · simp [h]

/-- Membership after a set-extend. -/
theorem mem_extendSits (s news : List EarleySituation) (y : EarleySituation) :
    y ∈ extendSits s news ↔ y ∈ s ∨ y ∈ news := by
  unfold extendSits
  induction news generalizing s with
  | nil => simp
  | cons x xs ihx =>
    simp only [List.foldl_cons]
    rw [ihx, mem_insertSit]
    constructor
    · rintro ((hy | rfl) | hy)
      · exact Or.inl hy
      · exact Or.inr (List.mem_cons_self _ _)
      · exact Or.inr (List.mem_cons_of_mem _ hy)
    · rintro (hy | hy)
      · exact Or.inl (Or.inl hy)
      · rcases List.mem_cons.mp hy with rfl | hy
        · exact Or.inl (Or.inr rfl)
        · exact Or.inr hy

/-- `getD` after a `set`, with the out-of-range case. -/
theorem getD_set (l : Chart) (i j : Nat) (x : List EarleySituation) :
    (l.set i x).getD j [] =
      if j = i ∧ i < l.length then x else l.getD j [] := by
  by_cases hij : j = i
  · subst hij
    by_cases hi : j < l.length
    · rw [List.getD_eq_getElem?_getD, List.getElem?_set_self hi]
      simp [hi]
    · have hset : l.set j x = l := by
        apply List.set_eq_of_length_le
        omega
      simp [hset, hi]
  · rw [List.getD_eq_getElem?_getD,
      List.getElem?_set_ne (fun hh => hij hh.symm),
      ← List.getD_eq_getElem?_getD]
    simp [hij]

/-- Fold invariant on the accumulator. -/
theorem foldl_inv {β γ : Type} (P : γ → Prop) (step : γ → β → γ) :
    ∀ (l : List β) (init : γ), P init →
    (∀ acc b, b ∈ l → P acc → P (step acc b)) → P (l.foldl step init) := by
  intro l
  induction l with
  | nil => intro init h _; exact h
  | cons b bs ihb =>
    intro init h hstep
    simp only [List.foldl_cons]
    exact ihb (step init b) (hstep init b (List.mem_cons_self _ _) h)
      (fun acc x hx => hstep acc x (List.mem_cons_of_mem _ hx))

/-- `seg` as a drop-then-take. -/
theorem seg_eq (w : List Char) (i k : Nat) :
    seg w i k = (w.drop i).take (k - i) := by
  unfold seg
  rw [List.drop_take]

/-- The empty segment. -/
theorem seg_self (w : List Char) (k : Nat) : seg w k k = [] := by
  rw [seg_eq]
  simp

/-- Gluing adjacent segments. -/
theorem seg_glue (w : List Char) (i j k : Nat) (hij : i ≤ j) (hjk : j ≤ k) :
    seg w i j ++ seg w j k = seg w i k := by
  rw [seg_eq, seg_eq, seg_eq]
  have hdrop : w.drop j = (w.drop i).drop (j - i) := by
    rw [List.drop_drop]
    congr 1
    omega
  rw [hdrop]
  have hk : k - i = (j - i) + (k - j) := by omega
  rw [hk, List.take_add]

/-- Extending a segment by the next input character. -/
theorem seg_succ (w : List Char) (i k : Nat) (hik : i ≤ k)
    (hk : k < w.length) :
    seg w i (k + 1) = seg w i k ++ [w.get ⟨k, hk⟩] := by
  rw [seg_eq, seg_eq]
  have h1 : k + 1 - i = (k - i) + 1 := by omega
  rw [h1, List.take_succ]
  congr 1
  have hlt : k - i < (w.drop i).length := by
    rw [List.length_drop]
    omega
  rw [List.getElem?_eq_getElem hlt]
  simp only [Option.toList_some]
  congr 1
  rw [List.getElem_drop]
  congr 1
  omega

/-- A single rewriting step is stable under appending on the right. -/
theorem ruleStep_append_right (g : CFGrammar) (u v r : List Char)
    (h : RuleStep g u v) : RuleStep g (u ++ r) (v ++ r) := by
  obtain ⟨pre, A, rhs, post, hrule, hu, hv⟩ := h
  exact ⟨pre, A, rhs, post ++ r, hrule, by simp [hu], by simp [hv]⟩

/-- A single rewriting step is stable under appending on the left. -/
theorem ruleStep_append_left (g : CFGrammar) (l u v : List Char)
    (h : RuleStep g u v) : RuleStep g (l ++ u) (l ++ v) := by
  obtain ⟨pre, A, rhs, post, hrule, hu, hv⟩ := h
  exact ⟨l ++ pre, A, rhs, post, hrule, by simp [hu], by simp [hv]⟩

/-- Derivability is stable under appending on the right. -/
theorem derives_append_right (g : CFGrammar) (u v r : List Char)
    (h : Derives g u v) : Derives g (u ++ r) (v ++ r) :=
  Relation.ReflTransGen.lift (fun x => x ++ r)
    (fun _ _ hs => ruleStep_append_right g _ _ r hs) h

/-- Derivability is stable under appending on the left. -/
theorem derives_append_left (g : CFGrammar) (l u v : List Char)
    (h : Derives g u v) : Derives g (l ++ u) (l ++ v) :=
  Relation.ReflTransGen.lift (fun x => l ++ x)
    (fun _ _ hs => ruleStep_append_left g l _ _ hs) h

/-- One-step derivation from a rule. -/
theorem Derives.of_rule (g : CFGrammar) (A : Char) (rhs : List Char)
    (h : (A, rhs) ∈ g.rules) : Derives g [A] rhs := by
  apply Relation.ReflTransGen.single
  exact ⟨[], A, rhs, [], h, rfl, by simp⟩

end Langram
namespace Langram

/-- `nth` within the right-hand side picks out the dotted symbol. -/
theorem nth_lt (it : EarleySituation) (h : it.pos < it.rule.2.length) :
    it.nth it.pos = it.rule.2.get ⟨it.pos, h⟩ := by
  unfold EarleySituation.nth
  rw [List.getD_eq_getElem?_getD, List.getElem?_eq_getElem h]
  rfl

/-- The prediction pass preserves the chart invariant. -/
theorem predictStep_inv (g : CFGrammar) (w : List Char) (chart : Chart)
    (curr : Nat) (h : ChartInv g w chart) :
    ChartInv g w (predictStep g chart curr) := by
  intro k it hit
  simp only [predictStep] at hit
  rw [getD_set] at hit
  by_cases hk : k = curr ∧ curr < chart.length
  · rw [if_pos hk] at hit
    obtain ⟨rfl, -⟩ := hk
    rw [mem_extendSits] at hit
    rcases hit with hit | hit
    · exact h k it hit
    · refine foldl_inv (fun acc => ∀ y ∈ acc, GoodItem g w k y) _ _ []
        (fun y hy => absurd hy (List.not_mem_nil y)) ?_ it hit
      intro acc situation hsit hacc y hy
      by_cases hguard : situation.rule.2.length ≤ situation.pos
      · rw [if_pos hguard] at hy
        exact hacc y hy
      · rw [if_neg hguard] at hy
        revert y hy
        refine foldl_inv (fun acc2 => ∀ y ∈ acc2, GoodItem g w k y) _ _
          acc hacc ?_
        intro acc2 rr hrr hacc2 y hy
        rw [mem_insertSit] at hy
        rcases hy with hy | rfl
        · exact hacc2 y hy
        · refine ⟨le_refl _, get_vec_mem g _ rr hrr, fun _ => ?_⟩
          rw [List.take_zero, seg_self]
          exact Relation.ReflTransGen.refl
  · rw [if_neg hk] at hit
    exact h k it hit

/-- Scanning the `curr`-th input character preserves the chart
invariant. -/
theorem scanStep_inv (g : CFGrammar) (w : List Char) (chart : Chart)
    (curr : Nat) (hcur : curr < w.length) (h : ChartInv g w chart) :
    ChartInv g w (scanStep chart (w.get ⟨curr, hcur⟩) curr) := by
  intro k it hit
  simp only [scanStep] at hit
  rw [getD_set] at hit
  by_cases hk : k = curr + 1 ∧ curr + 1 < chart.length
  · rw [if_pos hk] at hit
    obtain ⟨rfl, -⟩ := hk
    rw [mem_extendSits] at hit
    rcases hit with hit | hit
    · exact h (curr + 1) it hit
    · refine foldl_inv (fun acc => ∀ y ∈ acc, GoodItem g w (curr + 1) y)
        _ _ [] (fun y hy => absurd hy (List.not_mem_nil y)) ?_ it hit
      intro acc situation hsit hacc y hy
      by_cases hguard : situation.rule.2.length ≤ situation.pos
      · rw [if_pos hguard] at hy
        exact hacc y hy
      · rw [if_neg hguard] at hy
        by_cases hmatch : situation.nth situation.pos ==
            w.get ⟨curr, hcur⟩
        · rw [if_pos hmatch] at hy
          rw [mem_insertSit] at hy
          rcases hy with hy | rfl
          · exact hacc y hy
          · obtain ⟨hprev, hrule, hder⟩ := h curr situation hsit
            refine ⟨show situation.prev_cnt ≤ curr + 1 by omega, hrule,
              fun hple => ?_⟩
            have hple2 : situation.pos + 1 ≤ situation.rule.2.length :=
              hple
            have hplt : situation.pos < situation.rule.2.length := by
              omega
            have hder2 := hder (le_of_lt hplt)
            have hh := nth_lt situation hplt
            have hx : situation.rule.2[situation.pos] =
                w.get ⟨curr, hcur⟩ := by
              rw [← eq_of_beq hmatch]
              exact hh.symm
            have htake : situation.rule.2.take (situation.pos + 1) =
                situation.rule.2.take situation.pos ++
                  [w.get ⟨curr, hcur⟩] := by
              rw [List.take_succ, List.getElem?_eq_getElem hplt]
              simp only [Option.toList_some]
              rw [hx]
            show Derives g (situation.rule.2.take (situation.pos + 1))
              (seg w situation.prev_cnt (curr + 1))
            rw [htake, seg_succ w situation.prev_cnt curr hprev hcur]
            exact derives_append_right g _ _ _ hder2
        · rw [if_neg hmatch] at hy
          exact hacc y hy
  · rw [if_neg hk] at hit
    exact h k it hit

/-- The completion pass preserves the chart invariant. -/
theorem completeStep_inv (g : CFGrammar) (w : List Char) (chart : Chart)
    (curr : Nat) (h : ChartInv g w chart) :
    ChartInv g w (completeStep chart curr) := by
  intro k it hit
  simp only [completeStep] at hit
  rw [getD_set] at hit
  by_cases hk : k = curr ∧ curr < chart.length
  · rw [if_pos hk] at hit
    obtain ⟨rfl, -⟩ := hk
    rw [mem_extendSits] at hit
    rcases hit with hit | hit
    · exact h k it hit
    · refine foldl_inv (fun acc => ∀ y ∈ acc, GoodItem g w k y) _ _ []
        (fun y hy => absurd hy (List.not_mem_nil y)) ?_ it hit
      intro acc cs hcs hacc y hy
      by_cases hguard : cs.pos ≠ cs.rule.2.length
      · rw [if_pos hguard] at hy
        exact hacc y hy
      · rw [if_neg hguard] at hy
        push_neg at hguard
        revert y hy
        refine foldl_inv (fun acc2 => ∀ y ∈ acc2, GoodItem g w k y) _ _
          acc hacc ?_
        intro acc2 ps hps hacc2 y hy
        by_cases hmatch : ps.nth ps.pos == cs.rule.1
        · rw [if_pos hmatch] at hy
          rw [mem_insertSit] at hy
          rcases hy with hy | rfl
          · exact hacc2 y hy
          · obtain ⟨hprevc, hrulec, hderc⟩ := h k cs hcs
            obtain ⟨hprevp, hrulep, hderp⟩ := h cs.prev_cnt ps hps
            refine ⟨show ps.prev_cnt ≤ k by omega, hrulep,
              fun hple => ?_⟩
            have hple2 : ps.pos + 1 ≤ ps.rule.2.length := hple
            have hplt : ps.pos < ps.rule.2.length := by omega
            have hderp2 := hderp (le_of_lt hplt)
            have hderc2 := hderc (le_of_eq hguard)
            rw [hguard, List.take_length] at hderc2
            have hof : Derives g [cs.rule.1] cs.rule.2 :=
              Derives.of_rule g cs.rule.1 cs.rule.2 hrulec
            have hc : Derives g [cs.rule.1] (seg w cs.prev_cnt k) :=
              Relation.ReflTransGen.trans hof hderc2
            have hh := nth_lt ps hplt
            have hx : ps.rule.2[ps.pos] = cs.rule.1 := by
              rw [← eq_of_beq hmatch]
              exact hh.symm
            have htake : ps.rule.2.take (ps.pos + 1) =
                ps.rule.2.take ps.pos ++ [cs.rule.1] := by
              rw [List.take_succ, List.getElem?_eq_getElem hplt]
              simp only [Option.toList_some]
              rw [hx]
            show Derives g (ps.rule.2.take (ps.pos + 1))
              (seg w ps.prev_cnt k)
            rw [htake]
            have step1 : Derives g
                (ps.rule.2.take ps.pos ++ [cs.rule.1])
                (seg w ps.prev_cnt cs.prev_cnt ++ [cs.rule.1]) :=
              derives_append_right g _ _ _ hderp2
            have step2 : Derives g
                (seg w ps.prev_cnt cs.prev_cnt ++ [cs.rule.1])
                (seg w ps.prev_cnt cs.prev_cnt ++ seg w cs.prev_cnt k) :=
              derives_append_left g _ _ _ hc
            have hfin := Relation.ReflTransGen.trans step1 step2
            rwa [seg_glue w ps.prev_cnt cs.prev_cnt k hprevp hprevc]
              at hfin
        · rw [if_neg hmatch] at hy
          exact hacc2 y hy
  · rw [if_neg hk] at hit
    exact h k it hit

/-- One predict-then-complete pass preserves the chart invariant. -/
theorem layerPass_inv (g : CFGrammar) (w : List Char) (chart : Chart)
    (layer : Nat) (h : ChartInv g w chart) :
    ChartInv g w (layerPass g chart layer) :=
  completeStep_inv g w _ layer (predictStep_inv g w chart layer h)

/-- The saturation loop preserves the chart invariant. -/
theorem do_layer_inv (g : CFGrammar) (w : List Char) (fuel : Nat) :
    ∀ (chart : Chart) (layer : Nat), ChartInv g w chart →
    ChartInv g w (do_layer g fuel chart layer) := by
  induction fuel with
  | zero => intro chart layer h; exact h
  | succ n ihn =>
    intro chart layer h
    rw [do_layer]
    split
    · exact layerPass_inv g w chart layer h
    · exact ihn _ layer (layerPass_inv g w chart layer h)

end Langram
namespace Langram


end Langram
namespace Langram

/-- Membership after an ordered insert of an item. -/
theorem mem_insertSortedSitu (x y : LR1Situation) :
    ∀ s : LRState, y ∈ insertSortedSitu x s ↔ y = x ∨ y ∈ s := by
  intro s
  induction s with
  | nil => simp [insertSortedSitu]
  | cons z zs ihz =>
    unfold insertSortedSitu
    by_cases h : situLt x z
    · rw [if_pos h]
      simp
    · rw [if_neg h]
      simp only [List.mem_cons, ihz]
      tauto

/-- Membership after an ordered insert of a state. -/
theorem mem_insertSortedState (x y : LRState) :
    ∀ s : LRStates, y ∈ insertSortedState x s ↔ y = x ∨ y ∈ s := by
  intro s
  induction s with
  | nil => simp [insertSortedState]
  | cons z zs ihz =>
    unfold insertSortedState
    by_cases h : stateLt x z
    · rw [if_pos h]
      simp
    · rw [if_neg h]
      simp only [List.mem_cons, ihz]
      tauto

/-- An item predicate closed under the expansions that `closure`
performs: descending through a stored production with a fresh dot and an
arbitrary lookahead. -/
def ClosP (g : CFGrammar) (P : LR1Situation → Prop) : Prop :=
  ∀ sit : LR1Situation, P sit → sit.pos < sit.rule.2.length →
    ∀ rr ∈ g.get_vec (sit.nth sit.pos), ∀ la,
      P ⟨(sit.nth sit.pos, rr), 0, la⟩

/-- One closure expansion step preserves an invariant on the accumulated
state together with the containment of the difference set. -/
theorem closureSitu_pres (g : CFGrammar) (P : LR1Situation → Prop)
    (hP : ClosP g P) (acc : LRState × LRState) (sit : LR1Situation)
    (hsit : P sit) (hacc : ∀ it ∈ acc.1, P it) (hsub : ∀ it ∈ acc.2, it ∈ acc.1) :
    (∀ it ∈ (closureSitu g acc sit).1, P it) ∧
      (∀ it ∈ (closureSitu g acc sit).2, it ∈ (closureSitu g acc sit).1) := by
  unfold closureSitu
  by_cases hguard : sit.rule.2.length ≤ sit.pos
  · rw [if_pos hguard]
    exact ⟨hacc, hsub⟩
  · rw [if_neg hguard]
    have hlt : sit.pos < sit.rule.2.length := by omega
    refine foldl_inv (fun a : LRState × LRState =>
        (∀ it ∈ a.1, P it) ∧ ∀ it ∈ a.2, it ∈ a.1) _ _ _ ⟨hacc, hsub⟩ ?_
    intro acc1 rr hrr hacc1
    refine foldl_inv (fun a : LRState × LRState =>
        (∀ it ∈ a.1, P it) ∧ ∀ it ∈ a.2, it ∈ a.1) _ _ _ hacc1 ?_
    intro acc2 symbol hsym hacc2
    by_cases hmem : (⟨(sit.nth sit.pos, rr), 0, symbol⟩ : LR1Situation) ∈
        acc2.1
    · rw [if_pos hmem]
      exact hacc2
    · rw [if_neg hmem]
      constructor
      · intro it hit
        rw [mem_insertSortedSitu] at hit
        rcases hit with rfl | hit
        · exact hP sit hsit hlt rr hrr symbol
        · exact hacc2.1 it hit
      · intro it hit
        by_cases hd : (⟨(sit.nth sit.pos, rr), 0, symbol⟩ : LR1Situation) ∈
            acc2.2
        · rw [if_pos hd] at hit
          rw [mem_insertSortedSitu]
          exact Or.inr (hacc2.2 it hit)
        · rw [if_neg hd] at hit
          rw [mem_insertSortedSitu] at hit ⊢
          rcases hit with rfl | hit
          · exact Or.inl rfl
          · exact Or.inr (hacc2.2 it hit)

/-- The closure worklist loop preserves an item invariant. -/
theorem closureLoop_pres (g : CFGrammar) (P : LR1Situation → Prop)
    (hP : ClosP g P) :
    ∀ (fuel : Nat) (ns pd : LRState), (∀ it ∈ ns, P it) →
      (∀ it ∈ pd, it ∈ ns) →
      ∀ it ∈ closureLoop g fuel ns pd, P it := by
  intro fuel
  induction fuel with
  | zero => intro ns pd hns _ it hit; exact hns it hit
  | succ n ihn =>
    intro ns pd hns hpd
    rw [closureLoop]
    have hfold : (∀ it ∈ (pd.foldl (closureSitu g) (ns, [])).1, P it) ∧
        ∀ it ∈ (pd.foldl (closureSitu g) (ns, [])).2,
          it ∈ (pd.foldl (closureSitu g) (ns, [])).1 := by
      refine foldl_inv (fun a : LRState × LRState =>
          (∀ it ∈ a.1, P it) ∧ ∀ it ∈ a.2, it ∈ a.1) _ _ _
        ⟨hns, fun it hit => absurd hit (List.not_mem_nil it)⟩ ?_
      intro acc sit hsit hacc
      exact closureSitu_pres g P hP acc sit (hns sit (hpd sit hsit))
        hacc.1 hacc.2
    split
    · exact hfold.1
    · exact ihn _ _ hfold.1 hfold.2

/-- `closure` preserves an item invariant closed under expansion. -/
theorem closure_pres (g : CFGrammar) (P : LR1Situation → Prop)
    (hP : ClosP g P) (state : LRState) (hst : ∀ it ∈ state, P it) :
    ∀ it ∈ closure g state, P it :=
  closureLoop_pres g P hP (closureFuel g) state state hst (fun _ h => h)

/-- `goto` preserves an item invariant closed under expansion and dot
advancement. -/
theorem goto_items_pres (g : CFGrammar) (P : LR1Situation → Prop)
    (hP : ClosP g P)
    (hadv : ∀ sit : LR1Situation, P sit → sit.pos < sit.rule.2.length →
      P ⟨sit.rule, sit.pos + 1, sit.lookahead⟩)
    (state : LRState) (hst : ∀ it ∈ state, P it) (symbol : Char) :
    ∀ it ∈ goto g state symbol, P it := by
  unfold goto
  apply closure_pres g P hP
  refine foldl_inv (fun a : LRState => ∀ it ∈ a, P it) _ _ _
    (fun it hit => absurd hit (List.not_mem_nil it)) ?_
  intro acc sit hsit hacc
  by_cases hguard : sit.rule.2.length ≤ sit.pos
  · rw [if_pos hguard]
    exact hacc
  · rw [if_neg hguard]
    by_cases hm : sit.nth sit.pos == symbol
    · rw [if_pos hm]
      by_cases hd : (⟨sit.rule, sit.pos + 1, sit.lookahead⟩ :
          LR1Situation) ∈ acc
      · rw [if_pos hd]
        exact hacc
      · rw [if_neg hd]
        intro it hit
        rw [mem_insertSortedSitu] at hit
        rcases hit with rfl | hit
        · exact hadv sit (hst sit hsit) (by omega)
        · exact hacc it hit
    · rw [if_neg hm]
      exact hacc

/-- The state-enumeration worklist loop preserves a state invariant
closed under `goto`. -/
theorem statesLoop_pres (g : CFGrammar) (syms : List Char)
    (P : LRState → Prop)
    (hgoto : ∀ st, P st → ∀ sym, P (goto g st sym)) :
    ∀ (fuel : Nat) (states pd : LRStates), (∀ st ∈ states, P st) →
      (∀ st ∈ pd, P st) →
      ∀ st ∈ statesLoop g syms fuel states pd, P st := by
  intro fuel
  induction fuel with
  | zero => intro states pd hs _ st hst; exact hs st hst
  | succ n ihn =>
    intro states pd hs hpd
    rw [statesLoop]
    have hfold : (∀ st ∈ (pd.foldl (fun acc state =>
        syms.foldl (fun (acc2 : LRStates × LRStates) symbol =>
          let gt := goto g state symbol
          if gt.isEmpty then acc2
          else if gt ∈ acc2.1 then acc2
          else
            (insertSortedState gt acc2.1,
             if gt ∈ acc2.2 then acc2.2 else insertSortedState gt acc2.2))
          acc) (states, ([] : LRStates))).1, P st) ∧
        ∀ st ∈ (pd.foldl (fun acc state =>
        syms.foldl (fun (acc2 : LRStates × LRStates) symbol =>
          let gt := goto g state symbol
          if gt.isEmpty then acc2
          else if gt ∈ acc2.1 then acc2
          else
            (insertSortedState gt acc2.1,
             if gt ∈ acc2.2 then acc2.2 else insertSortedState gt acc2.2))
          acc) (states, ([] : LRStates))).2, P st := by
      refine foldl_inv (fun a : LRStates × LRStates =>
          (∀ st ∈ a.1, P st) ∧ ∀ st ∈ a.2, P st) _ _ _
        ⟨hs, fun st hst => absurd hst (List.not_mem_nil st)⟩ ?_
      intro acc state hstate hacc
      refine foldl_inv (fun a : LRStates × LRStates =>
          (∀ st ∈ a.1, P st) ∧ ∀ st ∈ a.2, P st) _ _ _ hacc ?_
      intro acc2 symbol hsym hacc2
      dsimp only
      by_cases he : (goto g state symbol).isEmpty
      · rw [if_pos he]
        exact hacc2
      · rw [if_neg he]
        by_cases hm : goto g state symbol ∈ acc2.1
        · rw [if_pos hm]
          exact hacc2
        · rw [if_neg hm]
          have hgt : P (goto g state symbol) :=
            hgoto state (hpd state hstate) symbol
          constructor
          · intro st hst
            rw [mem_insertSortedState] at hst
            rcases hst with rfl | hst
            · exact hgt
            · exact hacc2.1 st hst
          · intro st hst
            by_cases hd : goto g state symbol ∈ acc2.2
            · rw [if_pos hd] at hst
              exact hacc2.2 st hst
            · rw [if_neg hd] at hst
              rw [mem_insertSortedState] at hst
              rcases hst with rfl | hst
              · exact hgt
              · exact hacc2.2 st hst
    split
    · exact hfold.1
    · exact ihn _ _ hfold.1 hfold.2

/-- Every state that `get_states` enumerates satisfies any state
invariant that holds of the initial state and is closed under `goto`. -/
theorem get_states_pres (g : CFGrammar) (P : LRState → Prop)
    (hgoto : ∀ st, P st → ∀ sym, P (goto g st sym))
    (hS0 : P (initialState g)) :
    ∀ st ∈ get_states g, P st := by
  unfold get_states
  refine statesLoop_pres g _ P hgoto _ _ _ ?_ ?_
  · intro st hst
    rcases List.mem_singleton.mp hst with rfl
    exact hS0
  · intro st hst
    rcases List.mem_singleton.mp hst with rfl
    exact hS0

/-- Every item of every enumerated state satisfies any item invariant
that holds of the seed start item and is closed under closure expansion
and dot advancement. -/
theorem get_states_items (g : CFGrammar) (P : LR1Situation → Prop)
    (hP : ClosP g P)
    (hadv : ∀ sit : LR1Situation, P sit → sit.pos < sit.rule.2.length →
      P ⟨sit.rule, sit.pos + 1, sit.lookahead⟩)
    (hstart : P ⟨g.get_start_rule, 0, END_TERMINAL⟩) :
    ∀ st ∈ get_states g, ∀ it ∈ st, P it := by
  refine get_states_pres g (fun st => ∀ it ∈ st, P it) ?_ ?_
  · intro st hst sym
    exact goto_items_pres g P hP hadv st hst sym
  · unfold initialState
    apply closure_pres g P hP
    intro it hit
    rcases List.mem_singleton.mp hit with rfl
    exact hstart

/-- The dotted symbol of an item lies in its right-hand side. -/
theorem nthLR_mem (sit : LR1Situation) (h : sit.pos < sit.rule.2.length) :
    sit.nth sit.pos ∈ sit.rule.2 := by
  unfold LR1Situation.nth
  rw [List.getD_eq_getElem?_getD, List.getElem?_eq_getElem h]
  exact List.getElem_mem h

/-- Every item of every enumerated state carries a stored production. -/
theorem get_states_rules (g : CFGrammar)
    (hmem : g.get_start_rule ∈ g.rules) :
    ∀ st ∈ get_states g, ∀ it ∈ st, it.rule ∈ g.rules := by
  refine get_states_items g (fun it => it.rule ∈ g.rules) ?_ ?_ hmem
  · intro sit _ _ rr hrr la
    exact get_vec_mem g _ rr hrr
  · intro sit hsit _
    exact hsit

end Langram
namespace Langram

/-- What the LR(1) `fit` may put into an action cell of column `a`:
`Accept` only in the `END` column, `Shift` only for symbols that occur in
a rule body or are non-terminals, `Reduce` only with a stored left-hand
side as its symbol. -/
def CellOk (g : CFGrammar) (a : Char) : LR1Action → Prop
  | LR1Action.NoAction => True
  | LR1Action.Shift _ => (∃ r ∈ g.rules, a ∈ r.2) ∨ a ∈ g.non_terminals
  | LR1Action.Reduce _ sym => ∃ r ∈ g.rules, sym = r.1
  | LR1Action.Accept => a = END_TERMINAL

/-- The table invariant: every readable cell is well-formed. -/
def TableOk (g : CFGrammar) (t : Transitions) : Prop :=
  ∀ s a, CellOk g a (transGet t s a)

/-- The empty table is well-formed. -/
theorem tableOk_nil (g : CFGrammar) : TableOk g [] := by
  intro s a
  unfold transGet
  simp only [List.find?]
  trivial

/-- Materializing defaults preserves the table invariant. -/
theorem tableOk_transEnsure (g : CFGrammar) (t : Transitions) (s : Nat)
    (c : Char) (h : TableOk g t) : TableOk g (transEnsure t s c) := by
  intro s' a'
  rw [transGet_transEnsure]
  exact h s' a'

/-- A well-formed write preserves the table invariant. -/
theorem tableOk_add (g : CFGrammar) (t : Transitions) (s : Nat) (c : Char)
    (a : LR1Action) (t' : Transitions)
    (hadd : add_transition t s c a = Except.ok t')
    (hc : CellOk g c a) (h : TableOk g t) : TableOk g t' := by
  intro s' a'
  by_cases hsc : s' = s ∧ a' = c
  · obtain ⟨rfl, rfl⟩ := hsc
    rw [add_transition_get_self t s' a' a t' hadd]
    exact hc
  · rw [add_transition_get_other t s c a t' hadd s' a' (by tauto)]
    exact h s' a'

/-- Invariant preservation through a fallible fold. -/
theorem foldlM_ok_pres {α σ : Type} (P : σ → Prop)
    (f : σ → α → Except String σ) :
    ∀ (l : List α) (s s' : σ),
      (∀ x ∈ l, ∀ a a', P a → f a x = Except.ok a' → P a') →
      P s → l.foldlM f s = Except.ok s' → P s' := by
  intro l
  induction l with
  | nil =>
    intro s s' _ hs hfold
    rw [List.foldlM_nil] at hfold
    injection hfold with h2
    exact h2 ▸ hs
  | cons x xs ihx =>
    intro s s' hstep hs hfold
    rw [List.foldlM_cons] at hfold
    cases hx : f s x with
    | error e =>
      rw [hx] at hfold
      simp only [bind, Except.bind] at hfold
      exact Except.noConfusion hfold
    | ok s1 =>
      rw [hx] at hfold
      simp only [bind, Except.bind] at hfold
      have hs1 : P s1 := hstep x (List.mem_cons_self _ _) s s1 hs hx
      exact ihx s1 s'
        (fun y hy => hstep y (List.mem_cons_of_mem _ hy)) hs1 hfold

/-- Emitting the actions of a single item preserves the table
invariant. -/
theorem fitSituation_table (g : CFGrammar) (states : LRStates)
    (state : LRState) (sm : Nat) (p p' : LR1Parser) (sit : LR1Situation)
    (hsitr : sit.rule ∈ g.rules)
    (h : fitSituation g states state sm p sit = Except.ok p')
    (hT : TableOk g p.transitions) : TableOk g p'.transitions := by
  unfold fitSituation at h
  simp only [bind, Except.bind, pure, Except.pure] at h
  split at h
  · rename_i hpos
    split at h
    · rename_i hterm
      split at h
      · rename_i e hadd
        exact Except.noConfusion h
      · rename_i t hadd
        have hTt : TableOk g t := by
          refine tableOk_add g p.transitions sm (sit.nth sit.pos) _ t
            hadd ?_ hT
          exact Or.inl ⟨sit.rule, hsitr, nthLR_mem sit hpos⟩
        split at h <;> (injection h with h2; rw [← h2]; exact hTt)
    · split at h <;> (injection h with h2; rw [← h2]; exact hT)
  · rename_i hpos
    split at h
    · rename_i hacc
      split at h
      · rename_i e hadd
        exact Except.noConfusion h
      · rename_i t hadd
        injection h with h2
        rw [← h2]
        refine tableOk_add g p.transitions sm sit.lookahead _ t hadd ?_ hT
        exact eq_of_beq hacc.2
    · split at h
      · rename_i e hadd
        exact Except.noConfusion h
      · rename_i t hadd
        injection h with h2
        rw [← h2]
        refine tableOk_add g p.transitions sm sit.lookahead _ t hadd ?_ hT
        exact ⟨sit.rule, hsitr, rfl⟩

/-- Emitting the actions of a whole state preserves the table
invariant. -/
theorem fitState_table (g : CFGrammar) (states : LRStates)
    (p p' : LR1Parser) (state : LRState)
    (hrules : ∀ it ∈ state, it.rule ∈ g.rules)
    (h : fitState g states p state = Except.ok p')
    (hT : TableOk g p.transitions) : TableOk g p'.transitions := by
  unfold fitState at h
  simp only [bind, Except.bind, pure, Except.pure] at h
  split at h
  · rename_i e h1
    exact Except.noConfusion h
  · rename_i p1 h1
    have hT1 : TableOk g p1.transitions := by
      refine foldlM_ok_pres (fun q : LR1Parser => TableOk g q.transitions)
        _ state p p1 ?_ hT h1
      intro sit hsit q q' hq hfit
      exact fitSituation_table g states state (stateIdx states state)
        q q' sit (hrules sit hsit) hfit hq
    refine foldlM_ok_pres (fun q : LR1Parser => TableOk g q.transitions)
      _ g.non_terminals p1 p' ?_ hT1 h
    intro letter hletter q q' hq hfit
    by_cases hgt : (goto g state letter).isEmpty
    · rw [if_pos hgt] at hfit
      injection hfit with h2
      rw [← h2]
      exact hq
    · rw [if_neg hgt] at hfit
      split at hfit
      · rename_i e hadd
        exact Except.noConfusion hfit
      · rename_i t hadd
        injection hfit with h2
        rw [← h2]
        refine tableOk_add g q.transitions _ letter _ t hadd ?_ hq
        exact Or.inr hletter

/-- After a successful LR(1) fit from a fresh parser, the whole table is
well-formed. -/
theorem fit_table (g : CFGrammar) (p' : LR1Parser)
    (hmem : g.get_start_rule ∈ g.rules)
    (h : LR1Parser.fit LR1Parser.new g = Except.ok p') :
    TableOk g p'.transitions := by
  unfold LR1Parser.fit at h
  refine foldlM_ok_pres (fun q : LR1Parser => TableOk g q.transitions)
    _ (get_states g) LR1Parser.new p' ?_ (tableOk_nil g) h
  intro state hstate q q' hq hfit
  exact fitState_table g (get_states g) q q' state
    (get_states_rules g hmem state hstate) hfit hq

end Langram
namespace Langram

/-- Against a well-formed table, the driver can never accept while a
character that no shift column admits still sits on the symbol stack
below every `END` marker. -/
theorem lrRun_no_accept (g : CFGrammar) (c : Char)
    (hcR : ∀ r ∈ g.rules, c ∉ r.2) (hcN : c ∉ g.non_terminals)
    (hcE : c ≠ END_TERMINAL)
    (hLhs : ∀ r ∈ g.rules, r.1 ≠ END_TERMINAL) :
    ∀ (fuel : Nat) (t : Transitions) (queue : List Nat)
      (stack u v : List Char), TableOk g t →
      stack = u ++ c :: v → END_TERMINAL ∉ u →
      (lrRun t queue stack fuel).2 ≠ some (DriveRes.ret true) := by
  intro fuel
  induction fuel with
  | zero =>
    intro t queue stack u v _ _ _
    simp [lrRun]
  | succ n ihn =>
    intro t queue stack u v hT hstack hu
    match queue, stack with
    | [], _ => simp [lrRun]
    | _ :: _, [] => simp [lrRun]
    | s :: qrest, a :: srest =>
      rw [lrRun]
      have hT1 : TableOk g (transEnsure t s a) :=
        tableOk_transEnsure g t s a hT
      have hcell := hT1 s a
      cases hact : transGet (transEnsure t s a) s a with
      | NoAction => simp [hact]
      | Accept =>
        rw [hact] at hcell
        exfalso
        cases u with
        | nil =>
          injection hstack with h1 _
          exact hcE (h1.symm ▸ hcell)
        | cons x u' =>
          injection hstack with h1 _
          exact hu (by rw [← h1, hcell]; exact List.mem_cons_self _ _)
      | Shift st =>
        rw [hact] at hcell
        simp only [hact]
        cases u with
        | nil =>
          exfalso
          injection hstack with h1 _
          subst h1
          rcases hcell with ⟨r, hr, hcr⟩ | hcn
          · exact hcR r hr hcr
          · exact hcN hcn
        | cons x u' =>
          injection hstack with h1 h2
          exact ihn (transEnsure t s a) (st :: s :: qrest) srest u' v hT1
            h2 (fun hh => hu (List.mem_cons_of_mem _ hh))
      | Reduce count symbol =>
        rw [hact] at hcell
        simp only [hact]
        by_cases hlen : (s :: qrest).length < count
        · rw [if_pos hlen]
          simp
        · rw [if_neg hlen]
          obtain ⟨r, hr, rfl⟩ := hcell
          refine ihn (transEnsure t s a) _ (r.1 :: a :: srest)
            (r.1 :: u) v hT1 ?_ ?_
          · rw [hstack]
            rfl
          · intro hh
            rcases List.mem_cons.mp hh with hh | hh
            · exact hLhs r hr hh.symm
            · exact hu hh

/-- Reading a cell of the chart after `set` at another index. -/
theorem predictStep_other (g : CFGrammar) (chart : Chart) (curr j : Nat)
    (h : j ≠ curr) :
    (predictStep g chart curr).getD j [] = chart.getD j [] := by
  simp only [predictStep]
  rw [getD_set]
  simp [h]

/-- `completeStep` leaves other layers unchanged. -/
theorem completeStep_other (chart : Chart) (curr j : Nat) (h : j ≠ curr) :
    (completeStep chart curr).getD j [] = chart.getD j [] := by
  simp only [completeStep]
  rw [getD_set]
  simp [h]

/-- `scanStep` leaves layers other than its target unchanged. -/
theorem scanStep_other (chart : Chart) (letter : Char) (curr j : Nat)
    (h : j ≠ curr + 1) :
    (scanStep chart letter curr).getD j [] = chart.getD j [] := by
  simp only [scanStep]
  rw [getD_set]
  simp [h]

/-- `layerPass` writes only its own layer. -/
theorem layerPass_other (g : CFGrammar) (chart : Chart) (layer j : Nat)
    (h : j ≠ layer) :
    (layerPass g chart layer).getD j [] = chart.getD j [] := by
  unfold layerPass
  rw [completeStep_other _ _ _ h, predictStep_other g _ _ _ h]

/-- `do_layer` writes only its own layer. -/
theorem do_layer_other (g : CFGrammar) (fuel : Nat) :
    ∀ (chart : Chart) (layer j : Nat), j ≠ layer →
    (do_layer g fuel chart layer).getD j [] = chart.getD j [] := by
  induction fuel with
  | zero => intro chart layer j _; rfl
  | succ n ihn =>
    intro chart layer j h
    rw [do_layer]
    split
    · exact layerPass_other g chart layer j h
    · rw [ihn _ layer j h, layerPass_other g chart layer j h]

/-- A prediction pass on an empty layer changes nothing. -/
theorem predictStep_empty (g : CFGrammar) (chart : Chart) (curr : Nat)
    (hemp : chart.getD curr [] = []) (j : Nat) :
    (predictStep g chart curr).getD j [] = chart.getD j [] := by
  simp only [predictStep]
  rw [getD_set]
  split
  · rename_i hj
    rw [hj.1, hemp]
    rfl
  · rfl

/-- A completion pass on an empty layer changes nothing. -/
theorem completeStep_empty (chart : Chart) (curr : Nat)
    (hemp : chart.getD curr [] = []) (j : Nat) :
    (completeStep chart curr).getD j [] = chart.getD j [] := by
  simp only [completeStep]
  rw [getD_set]
  split
  · rename_i hj
    rw [hj.1, hemp]
    rfl
  · rfl

/-- A scan from an empty layer changes nothing. -/
theorem scanStep_empty (chart : Chart) (letter : Char) (curr : Nat)
    (hemp : chart.getD curr [] = []) (j : Nat) :
    (scanStep chart letter curr).getD j [] = chart.getD j [] := by
  simp only [scanStep]
  rw [getD_set]
  split
  · rename_i hj
    rw [hj.1, hemp]
    rfl
  · rfl

/-- A predict-complete pass on an empty layer changes nothing. -/
theorem layerPass_empty (g : CFGrammar) (chart : Chart) (layer : Nat)
    (hemp : chart.getD layer [] = []) (j : Nat) :
    (layerPass g chart layer).getD j [] = chart.getD j [] := by
  unfold layerPass
  have hp : ∀ j2, (predictStep g chart layer).getD j2 [] =
      chart.getD j2 [] := predictStep_empty g chart layer hemp
  have hpe : (predictStep g chart layer).getD layer [] = [] := by
    rw [hp layer]
    exact hemp
  rw [completeStep_empty (predictStep g chart layer) layer hpe j, hp j]

/-- Saturating an empty layer changes nothing. -/
theorem do_layer_empty (g : CFGrammar) (fuel : Nat) :
    ∀ (chart : Chart) (layer : Nat), chart.getD layer [] = [] →
    ∀ j, (do_layer g fuel chart layer).getD j [] = chart.getD j [] := by
  induction fuel with
  | zero => intro chart layer _ j; rfl
  | succ n ihn =>
    intro chart layer hemp j
    rw [do_layer]
    split
    · exact layerPass_empty g chart layer hemp j
    · have hle : (layerPass g chart layer).getD layer [] = [] := by
        rw [layerPass_empty g chart layer hemp layer]
        exact hemp
      rw [ihn _ layer hle j, layerPass_empty g chart layer hemp j]

/-- Scanning a character that occurs in no rule body adds nothing. -/
theorem scanStep_bad (g : CFGrammar) (chart : Chart) (c : Char)
    (curr : Nat) (hrules : ∀ it ∈ chart.getD curr [], it.rule ∈ g.rules)
    (hcR : ∀ r ∈ g.rules, c ∉ r.2) (j : Nat) :
    (scanStep chart c curr).getD j [] = chart.getD j [] := by
  have hnews : (chart.getD curr []).foldl (fun acc situation =>
      if situation.rule.2.length ≤ situation.pos then acc
      else if situation.nth situation.pos == c then
        insertSit ⟨situation.rule, situation.pos + 1,
          situation.prev_cnt⟩ acc
      else acc) [] = [] := by
    refine foldl_inv (fun acc : List EarleySituation => acc = []) _ _ _
      rfl ?_
    intro acc sit hsit hacc
    by_cases hguard : sit.rule.2.length ≤ sit.pos
    · rw [if_pos hguard]
      exact hacc
    · rw [if_neg hguard]
      have hlt : sit.pos < sit.rule.2.length := by omega
      have hmem : sit.nth sit.pos ∈ sit.rule.2 := by
        unfold EarleySituation.nth
        rw [List.getD_eq_getElem?_getD, List.getElem?_eq_getElem hlt]
        exact List.getElem_mem hlt
      have hne : ¬ (sit.nth sit.pos == c) := by
        intro hbe
        exact hcR sit.rule (hrules sit hsit) (eq_of_beq hbe ▸ hmem)
      rw [if_neg hne]
      exact hacc
  simp only [scanStep]
  rw [hnews, getD_set]
  split
  · rename_i hj
    rw [hj.1]
    rfl
  · rfl

/-- After the bad scan, the rest of the run keeps every layer from the
cut point on empty. -/
theorem processWord_dead (g : CFGrammar) (fuel : Nat) :
    ∀ (ws : List Char) (chart : Chart) (i m : Nat), m ≤ i →
    Dead chart m → Dead (processWord g fuel chart ws i) m := by
  intro ws
  induction ws with
  | nil => intro chart i m _ hd; exact hd
  | cons ch rest ihr =>
    intro chart i m hmi hd
    rw [processWord]
    have hsc : ∀ j, (scanStep chart ch i).getD j [] = chart.getD j [] :=
      scanStep_empty chart ch i (hd i hmi)
    have hscl : (scanStep chart ch i).getD (i + 1) [] = [] := by
      rw [hsc (i + 1)]
      exact hd (i + 1) (by omega)
    have hdl : ∀ j, (do_layer g fuel (scanStep chart ch i) (i + 1)).getD
        j [] = (scanStep chart ch i).getD j [] :=
      do_layer_empty g fuel _ (i + 1) hscl
    refine ihr _ (i + 1) m (by omega) ?_
    intro j hj
    rw [hdl j, hsc j]
    exact hd j hj

/-- Driving the word across a position holding a character that occurs in
no rule body empties every later layer. -/
theorem processWord_bad (g : CFGrammar) (w : List Char) (c : Char)
    (fuel : Nat) (hcR : ∀ r ∈ g.rules, c ∉ r.2) :
    ∀ (ws : List Char) (chart : Chart) (i : Nat), w.drop i = ws →
    c ∈ ws → ChartInv g w chart → Dead chart (i + 1) →
    (processWord g fuel chart ws i).getD w.length [] = [] := by
  intro ws
  induction ws with
  | nil => intro chart i _ hc; exact absurd hc (List.not_mem_nil c)
  | cons ch rest ihr =>
    intro chart i hdrop hc hinv hdead
    have hi : i < w.length := by
      by_contra hge
      rw [List.drop_eq_nil_of_le (by omega)] at hdrop
      exact List.cons_ne_nil ch rest hdrop.symm
    obtain hceq | hcrest := List.mem_cons.mp hc
    · subst hceq
      rw [processWord]
      have hsc : ∀ j, (scanStep chart c i).getD j [] =
          chart.getD j [] :=
        scanStep_bad g chart c i
          (fun it hit => (hinv i it hit).2.1) hcR
      have hscl : (scanStep chart c i).getD (i + 1) [] = [] := by
        rw [hsc (i + 1)]
        exact hdead (i + 1) (le_refl _)
      have hdl : ∀ j, (do_layer g fuel (scanStep chart c i)
          (i + 1)).getD j [] = (scanStep chart c i).getD j [] :=
        do_layer_empty g fuel _ (i + 1) hscl
      have hdead2 : Dead (do_layer g fuel (scanStep chart c i) (i + 1))
          (i + 1) := by
        intro j hj
        rw [hdl j, hsc j]
        exact hdead j hj
      exact processWord_dead g fuel rest _ (i + 1) (i + 1) (le_refl _)
        hdead2 w.length (by omega)
    · have hsplit : w[i] :: w.drop (i + 1) = ch :: rest := by
        rw [List.getElem_cons_drop w i hi, hdrop]
      injection hsplit with hch hrest
      subst hch
      rw [processWord]
      have hinv2 : ChartInv g w (do_layer g fuel
          (scanStep chart w[i] i) (i + 1)) :=
        do_layer_inv g w fuel _ (i + 1) (scanStep_inv g w chart i hi hinv)
      have hdead2 : Dead (do_layer g fuel (scanStep chart w[i] i) (i + 1))
          (i + 2) := by
        intro j hj
        rw [do_layer_other g fuel _ (i + 1) j (by omega),
          scanStep_other chart _ i j (by omega)]
        exact hdead j (by omega)
      exact ihr _ (i + 1) hrest hcrest hinv2 hdead2

end Langram
namespace Langram

/-- The seeded initial chart satisfies the invariant. -/
theorem chart0_inv (g : CFGrammar) (w : List Char)
    (hmem : g.get_start_rule ∈ g.rules) :
    ChartInv g w ((List.replicate (w.length + 1)
      ([] : List EarleySituation)).set 0 [⟨g.get_start_rule, 0, 0⟩]) := by
  intro k it hit
  rw [getD_set] at hit
  by_cases hk : k = 0 ∧ 0 < (List.replicate (w.length + 1)
      ([] : List EarleySituation)).length
  · rw [if_pos hk] at hit
    obtain ⟨rfl, -⟩ := hk
    rcases List.mem_singleton.mp hit with rfl
    refine ⟨le_refl _, hmem, fun _ => ?_⟩
    rw [List.take_zero, seg_self]
    exact Relation.ReflTransGen.refl
  · rw [if_neg hk] at hit
    rw [List.getD_eq_getElem?_getD, List.getElem?_replicate] at hit
    by_cases hlt : k < w.length + 1
    · rw [if_pos hlt] at hit
      exact absurd hit (List.not_mem_nil it)
    · rw [if_neg hlt] at hit
      exact absurd hit (List.not_mem_nil it)

/-- Every layer of the seeded initial chart beyond layer zero is
empty. -/
theorem chart0_dead (n : Nat) (x : List EarleySituation) :
    Dead ((List.replicate (n + 1) ([] : List EarleySituation)).set 0 x)
      1 := by
  intro j hj
  rw [getD_set]
  rw [if_neg (by omega)]
  rw [List.getD_eq_getElem?_getD, List.getElem?_replicate]
  by_cases hlt : j < n + 1
  · rw [if_pos hlt]
    rfl
  · rw [if_neg hlt]
    rfl

/-- C3 (amended): an input character that is neither a terminal nor a
non-terminal nor present in any rule body makes the Earley recognizer
return `false`, and prevents the fitted LR(1) recognizer from ever
accepting (for any driver fuel), provided the grammar is sanely built and
the input word avoids the reserved `END` sentinel. -/
theorem C3_amended (g : CFGrammar) (w : List Char) (c : Char)
    (p' : LR1Parser) (hS : Sane g) (hcw : c ∈ w)
    (hcT : c ∉ g.terminals) (hcN : c ∉ g.non_terminals)
    (hcR : ∀ r ∈ g.rules, c ∉ r.2) (hwE : END_TERMINAL ∉ w)
    (hfitLR : LR1Parser.fit LR1Parser.new g = Except.ok p') :
    earleyRecognize g w = false ∧
    ∀ fuel, (p'.predictRun w fuel).2 ≠ some (DriveRes.ret true) := by
  constructor
  · by_cases hfit : EarleyParser.check_grammar g = true
    · have hrec : earleyRecognize g w =
          ((earleyChart g w).getD w.length []).contains
            (⟨g.get_start_rule, g.get_start_rule.2.length, 0⟩ :
              EarleySituation) := by
        unfold earleyRecognize EarleyParser.fit
        rw [if_pos hfit]
        rfl
      have hfin : (earleyChart g w).getD w.length [] = [] := by
        unfold earleyChart
        have hinv0 : ChartInv g w (do_layer g (earleyFuel g w.length)
            ((List.replicate (w.length + 1)
              ([] : List EarleySituation)).set 0
                [⟨g.get_start_rule, 0, 0⟩]) 0) :=
          do_layer_inv g w _ _ 0 (chart0_inv g w hS.hmem)
        have hdead0 : Dead (do_layer g (earleyFuel g w.length)
            ((List.replicate (w.length + 1)
              ([] : List EarleySituation)).set 0
                [⟨g.get_start_rule, 0, 0⟩]) 0) 1 := by
          intro j hj
          rw [do_layer_other g _ _ 0 j (by omega)]
          exact chart0_dead w.length _ j hj
        exact processWord_bad g w c (earleyFuel g w.length) hcR w _ 0
          (List.drop_zero w) hcw hinv0 hdead0
      rw [hrec, hfin]
      rfl
    · unfold earleyRecognize EarleyParser.fit
      rw [if_neg hfit]
  · intro fuel
    show (lrRun p'.transitions [p'.start] (w ++ [END_TERMINAL])
      fuel).2 ≠ some (DriveRes.ret true)
    obtain ⟨u, v, huv⟩ := List.append_of_mem hcw
    refine lrRun_no_accept g c hcR hcN
      (fun he => hcT (he ▸ hS.hEndT)) hS.hNoEndLhs fuel p'.transitions
      [p'.start] (w ++ [END_TERMINAL]) u (v ++ [END_TERMINAL])
      (fit_table g p' hS.hmem hfitLR) ?_ ?_
    · rw [huv]
      simp
    · intro hEu
      exact hwE (huv ▸ List.mem_append_left _ hEu)

/-- Witness for the amended C3: the grammar `S → a`, the input `"q"`, and
its concretely fitted LR(1) parser. -/
theorem C3_amended_witness :
    earleyRecognize gUnit ['q'] = false ∧
    ((⟨[(0, [('a', LR1Action.Shift 2), ('S', LR1Action.Shift 1)]),
        (1, [(END_TERMINAL, LR1Action.Accept)]),
        (2, [(END_TERMINAL, LR1Action.Reduce 1 'S')])], 0⟩ :
      LR1Parser).predictRun ['q'] 5).2 ≠ some (DriveRes.ret true) := by
  have h := C3_amended gUnit ['q'] 'q'
    ⟨[(0, [('a', LR1Action.Shift 2), ('S', LR1Action.Shift 1)]),
      (1, [(END_TERMINAL, LR1Action.Accept)]),
      (2, [(END_TERMINAL, LR1Action.Reduce 1 'S')])], 0⟩
    (by constructor <;> decide) (by decide) (by decide) (by decide)
    (by decide) (by decide) (by rfl)
  exact ⟨h.1, h.2 5⟩

end Langram
namespace Langram

/-- Ordered insert of a fresh item preserves duplicate-freedom. -/
theorem nodup_insertSortedSitu (x : LR1Situation) :
    ∀ s : LRState, x ∉ s → s.Nodup → (insertSortedSitu x s).Nodup := by
  intro s
  induction s with
  | nil => intro _ _; simp [insertSortedSitu]
  | cons z zs ihz =>
    intro hx hnd
    unfold insertSortedSitu
    by_cases h : situLt x z
    · rw [if_pos h]
      exact List.Nodup.cons hx hnd
    · rw [if_neg h]
      rw [List.nodup_cons] at hnd ⊢
      constructor
      · intro hz
        rw [mem_insertSortedSitu] at hz
        rcases hz with hz | hz
        · exact hx (hz ▸ List.mem_cons_self _ _)
        · exact hnd.1 hz
      · exact ihz (fun hh => hx (List.mem_cons_of_mem _ hh)) hnd.2

/-- Ordered insert of a fresh state preserves duplicate-freedom. -/
theorem nodup_insertSortedState (x : LRState) :
    ∀ s : LRStates, x ∉ s → s.Nodup → (insertSortedState x s).Nodup := by
  intro s
  induction s with
  | nil => intro _ _; simp [insertSortedState]
  | cons z zs ihz =>
    intro hx hnd
    unfold insertSortedState
    by_cases h : stateLt x z
    · rw [if_pos h]
      exact List.Nodup.cons hx hnd
    · rw [if_neg h]
      rw [List.nodup_cons] at hnd ⊢
      constructor
      · intro hz
        rw [mem_insertSortedState] at hz
        rcases hz with hz | hz
        · exact hx (hz ▸ List.mem_cons_self _ _)
        · exact hnd.1 hz
      · exact ihz (fun hh => hx (List.mem_cons_of_mem _ hh)) hnd.2

/-- One closure expansion keeps the accumulated state duplicate-free and
above any fixed base set. -/
theorem closureSitu_grow (g : CFGrammar) (base : LRState)
    (acc : LRState × LRState) (sit : LR1Situation)
    (hacc : acc.1.Nodup ∧ ∀ y ∈ base, y ∈ acc.1) :
    (closureSitu g acc sit).1.Nodup ∧
      ∀ y ∈ base, y ∈ (closureSitu g acc sit).1 := by
  unfold closureSitu
  by_cases hguard : sit.rule.2.length ≤ sit.pos
  · rw [if_pos hguard]
    exact hacc
  · rw [if_neg hguard]
    refine foldl_inv (fun a : LRState × LRState =>
        a.1.Nodup ∧ ∀ y ∈ base, y ∈ a.1) _ _ _ hacc ?_
    intro a1 rr hrr ha1
    refine foldl_inv (fun a : LRState × LRState =>
        a.1.Nodup ∧ ∀ y ∈ base, y ∈ a.1) _ _ _ ha1 ?_
    intro a2 sy hsy ha2
    by_cases hm : (⟨(sit.nth sit.pos, rr), 0, sy⟩ : LR1Situation) ∈ a2.1
    · rw [if_pos hm]
      exact ha2
    · rw [if_neg hm]
      refine ⟨nodup_insertSortedSitu _ a2.1 hm ha2.1, ?_⟩
      intro y hy
      show y ∈ insertSortedSitu _ a2.1
      rw [mem_insertSortedSitu]
      exact Or.inr (ha2.2 y hy)

/-- The closure loop keeps the state duplicate-free and only grows it. -/
theorem closureLoop_grow (g : CFGrammar) :
    ∀ (fuel : Nat) (ns pd : LRState), ns.Nodup →
    (closureLoop g fuel ns pd).Nodup ∧
      ∀ y ∈ ns, y ∈ closureLoop g fuel ns pd := by
  intro fuel
  induction fuel with
  | zero => intro ns pd hnd; exact ⟨hnd, fun y hy => hy⟩
  | succ n ihn =>
    intro ns pd hnd
    rw [closureLoop]
    have hfold : (pd.foldl (closureSitu g) (ns, [])).1.Nodup ∧
        ∀ y ∈ ns, y ∈ (pd.foldl (closureSitu g) (ns, [])).1 := by
      refine foldl_inv (fun a : LRState × LRState =>
          a.1.Nodup ∧ ∀ y ∈ ns, y ∈ a.1) _ _ _
        ⟨hnd, fun y hy => hy⟩ ?_
      intro a sit hsit ha
      exact closureSitu_grow g ns a sit ha
    split
    · exact hfold
    · have hr := ihn (pd.foldl (closureSitu g) (ns, [])).1
        (pd.foldl (closureSitu g) (ns, [])).2 hfold.1
      exact ⟨hr.1, fun y hy => hr.2 y (hfold.2 y hy)⟩

/-- `closure` keeps the state duplicate-free and contains its input. -/
theorem closure_grow (g : CFGrammar) (state : LRState)
    (hnd : state.Nodup) :
    (closure g state).Nodup ∧ ∀ y ∈ state, y ∈ closure g state :=
  closureLoop_grow g (closureFuel g) state state hnd

/-- The state enumeration loop keeps the collection duplicate-free and
only grows it. -/
theorem statesLoop_grow (g : CFGrammar) (syms : List Char) :
    ∀ (fuel : Nat) (states pd : LRStates), states.Nodup →
    (statesLoop g syms fuel states pd).Nodup ∧
      ∀ st ∈ states, st ∈ statesLoop g syms fuel states pd := by
  intro fuel
  induction fuel with
  | zero => intro states pd hnd; exact ⟨hnd, fun st hst => hst⟩
  | succ n ihn =>
    intro states pd hnd
    rw [statesLoop]
    have hfold : (pd.foldl (fun acc state =>
        syms.foldl (fun (acc2 : LRStates × LRStates) symbol =>
          let gt := goto g state symbol
          if gt.isEmpty then acc2
          else if gt ∈ acc2.1 then acc2
          else
            (insertSortedState gt acc2.1,
             if gt ∈ acc2.2 then acc2.2 else insertSortedState gt acc2.2))
          acc) (states, ([] : LRStates))).1.Nodup ∧
        ∀ st ∈ states, st ∈ (pd.foldl (fun acc state =>
        syms.foldl (fun (acc2 : LRStates × LRStates) symbol =>
          let gt := goto g state symbol
          if gt.isEmpty then acc2
          else if gt ∈ acc2.1 then acc2
          else
            (insertSortedState gt acc2.1,
             if gt ∈ acc2.2 then acc2.2 else insertSortedState gt acc2.2))
          acc) (states, ([] : LRStates))).1 := by
      refine foldl_inv (fun a : LRStates × LRStates =>
          a.1.Nodup ∧ ∀ st ∈ states, st ∈ a.1) _ _ _
        ⟨hnd, fun st hst => hst⟩ ?_
      intro a state hstate ha
      refine foldl_inv (fun a2 : LRStates × LRStates =>
          a2.1.Nodup ∧ ∀ st ∈ states, st ∈ a2.1) _ _ _ ha ?_
      intro a2 symbol hsym ha2
      dsimp only
      by_cases he : (goto g state symbol).isEmpty
      · rw [if_pos he]
        exact ha2
      · rw [if_neg he]
        by_cases hm : goto g state symbol ∈ a2.1
        · rw [if_pos hm]
          exact ha2
        · rw [if_neg hm]
          refine ⟨nodup_insertSortedState _ a2.1 hm ha2.1, ?_⟩
          intro st hst
          show st ∈ insertSortedState _ a2.1
          rw [mem_insertSortedState]
          exact Or.inr (ha2.2 st hst)
    split
    · exact hfold
    · have hfoldT := hfold
      refine ⟨?_, ?_⟩
      · exact (ihn _ _ hfoldT.1).1
      · intro st hst
        exact (ihn _ _ hfoldT.1).2 st (hfoldT.2 st hst)

/-- The enumerated state collection is duplicate-free and contains the
initial state. -/
theorem get_states_grow (g : CFGrammar) :
    (get_states g).Nodup ∧ initialState g ∈ get_states g := by
  unfold get_states
  have h := statesLoop_grow g (g.terminals ++ g.non_terminals)
    (statesFuel g) [initialState g] [initialState g] (by simp)
  exact ⟨h.1, h.2 _ (List.mem_singleton_self _)⟩

/-- `findIdx`-based state identifiers separate distinct stored states. -/
theorem stateIdx_inj (s1 s2 : LRState) :
    ∀ states : LRStates, states.Nodup → s1 ∈ states → s2 ∈ states →
    stateIdx states s1 = stateIdx states s2 → s1 = s2 := by
  intro states
  induction states with
  | nil => intro _ h1; exact absurd h1 (List.not_mem_nil s1)
  | cons x xs ihx =>
    intro hnd h1 h2 heq
    rw [List.nodup_cons] at hnd
    unfold stateIdx at heq
    rw [List.findIdx_cons, List.findIdx_cons] at heq
    by_cases hx1 : (x == s1) = true
    · by_cases hx2 : (x == s2) = true
      · rw [← eq_of_beq hx1, eq_of_beq hx2]
      · have hx2' : (x == s2) = false := by simpa using hx2
        rw [hx1, hx2'] at heq
        simp at heq
    · have hx1' : (x == s1) = false := by simpa using hx1
      by_cases hx2 : (x == s2) = true
      · rw [hx1', hx2] at heq
        simp at heq
      · have hx2' : (x == s2) = false := by simpa using hx2
        rw [hx1', hx2'] at heq
        simp only [cond_false] at heq
        have h1' : s1 ∈ xs := by
          rcases List.mem_cons.mp h1 with rfl | hh
          · exact absurd (beq_self_eq_true s1) hx1
          · exact hh
        have h2' : s2 ∈ xs := by
          rcases List.mem_cons.mp h2 with rfl | hh
          · exact absurd (beq_self_eq_true s2) hx2
          · exact hh
        refine ihx hnd.2 h1' h2' ?_
        unfold stateIdx
        omega

end Langram
namespace Langram

/-- Splitting a successful `Except` bind. -/
theorem bind_eq_ok {α β : Type} {x : Except String α}
    {f : α → Except String β} {b : β} (h : x >>= f = Except.ok b) :
    ∃ a, x = Except.ok a ∧ f a = Except.ok b := by
  cases x with
  | error e =>
    simp only [bind, Except.bind] at h
    exact Except.noConfusion h
  | ok a =>
    refine ⟨a, rfl, ?_⟩
    simpa only [bind, Except.bind] using h

/-- In every enumerated state, an item with the `START` left-hand side
and the dot inside the body is exactly the seed item. -/
theorem all_states_startP (g : CFGrammar) (hS : Sane g) :
    ∀ st ∈ get_states g, ∀ it ∈ st, it.rule ∈ g.rules ∧
      (it.rule.1 = START_RULE → it.pos < it.rule.2.length →
        it = ⟨g.get_start_rule, 0, END_TERMINAL⟩) := by
  refine get_states_items g (fun it => it.rule ∈ g.rules ∧
    (it.rule.1 = START_RULE → it.pos < it.rule.2.length →
      it = ⟨g.get_start_rule, 0, END_TERMINAL⟩)) ?_ ?_ ?_
  · intro sit hsit hlt rr hrr la
    refine ⟨get_vec_mem g _ rr hrr, ?_⟩
    intro hlhs _
    exact absurd (hlhs ▸ nthLR_mem sit hlt)
      (hS.hNoStartRhs sit.rule hsit.1)
  · intro sit hsit hlt
    refine ⟨hsit.1, ?_⟩
    intro hlhs hpos2
    have hp2 : sit.pos + 1 < sit.rule.2.length := hpos2
    have hseed := hsit.2 hlhs (by omega)
    exfalso
    rw [hseed] at hp2
    have hp3 : 0 + 1 < g.get_start_rule.2.length := hp2
    rw [hS.hlen] at hp3
    omega
  · refine ⟨hS.hmem, fun _ _ => rfl⟩

/-- A `goto` target never contains the seed item. -/
theorem goto_no_seed (g : CFGrammar) (hS : Sane g) (st : LRState)
    (hrules : ∀ it ∈ st, it.rule ∈ g.rules) (sym : Char) :
    (⟨g.get_start_rule, 0, END_TERMINAL⟩ : LR1Situation) ∉
      goto g st sym := by
  intro hmem
  have hall : ∀ it ∈ goto g st sym, it.rule ∈ g.rules ∧
      (1 ≤ it.pos ∨ it.rule.1 ≠ START_RULE) := by
    unfold goto
    apply closure_pres g (fun it => it.rule ∈ g.rules ∧
      (1 ≤ it.pos ∨ it.rule.1 ≠ START_RULE))
    · intro sit hsit hlt rr hrr la
      refine ⟨get_vec_mem g _ rr hrr, Or.inr ?_⟩
      intro hlhs
      exact hS.hNoStartRhs sit.rule hsit.1 (hlhs ▸ nthLR_mem sit hlt)
    · refine foldl_inv (fun a : LRState => ∀ it ∈ a, it.rule ∈ g.rules ∧
        (1 ≤ it.pos ∨ it.rule.1 ≠ START_RULE)) _ _ _
        (fun it hit => absurd hit (List.not_mem_nil it)) ?_
      intro acc sit hsit hacc
      by_cases hguard : sit.rule.2.length ≤ sit.pos
      · rw [if_pos hguard]
        exact hacc
      · rw [if_neg hguard]
        by_cases hm : sit.nth sit.pos == sym
        · rw [if_pos hm]
          by_cases hd : (⟨sit.rule, sit.pos + 1, sit.lookahead⟩ :
              LR1Situation) ∈ acc
          · rw [if_pos hd]
            exact hacc
          · rw [if_neg hd]
            intro it hit
            rw [mem_insertSortedSitu] at hit
            rcases hit with rfl | hit
            · exact ⟨hrules sit hsit, Or.inl (show 1 ≤ sit.pos + 1 by omega)⟩
            · exact hacc it hit
        · rw [if_neg hm]
          exact hacc
  have hc := hall _ hmem
  rcases hc.2 with hp | hl
  · exact absurd (show (1 : Nat) ≤ 0 from hp) (by omega)
  · exact hl (by rw [← hS.hstart]; rfl)

/-- Only the initial state contains the seed item. -/
theorem states_seed_only_S0 (g : CFGrammar) (hS : Sane g) :
    ∀ st ∈ get_states g,
      (⟨g.get_start_rule, 0, END_TERMINAL⟩ : LR1Situation) ∈ st →
        st = initialState g := by
  have h := get_states_pres g (fun st =>
    (∀ it ∈ st, it.rule ∈ g.rules) ∧
    ((⟨g.get_start_rule, 0, END_TERMINAL⟩ : LR1Situation) ∈ st →
      st = initialState g)) ?_ ?_
  · intro st hst hseed
    exact (h st hst).2 hseed
  · intro st hst sym
    constructor
    · refine goto_items_pres g (fun it => it.rule ∈ g.rules) ?_ ?_ st
        hst.1 sym
      · intro sit _ _ rr hrr la
        exact get_vec_mem g _ rr hrr
      · intro sit hsit _
        exact hsit
    · intro hseed
      exact absurd hseed (goto_no_seed g hS st hst.1 sym)
  · constructor
    · unfold initialState
      apply closure_pres g (fun it => it.rule ∈ g.rules)
      · intro sit _ _ rr hrr la
        exact get_vec_mem g _ rr hrr
      · intro it hit
        rcases List.mem_singleton.mp hit with rfl
        exact hS.hmem
    · intro _
      rfl

/-- Emitting one item leaves the start marker unchanged unless the item
is a dotted `START` production. -/
theorem fitSituation_start_other (g : CFGrammar) (states : LRStates)
    (state : LRState) (sm : Nat) (p p' : LR1Parser) (sit : LR1Situation)
    (hnot : ¬(sit.rule.1 = START_RULE ∧ sit.pos < sit.rule.2.length))
    (h : fitSituation g states state sm p sit = Except.ok p') :
    p'.start = p.start := by
  unfold fitSituation at h
  simp only [bind, Except.bind, pure, Except.pure] at h
  split at h
  · rename_i hpos
    have hlhs : ¬((sit.rule.1 == START_RULE) = true) := by
      intro hbe
      exact hnot ⟨eq_of_beq hbe, hpos⟩
    split at h
    · split at h
      · exact Except.noConfusion h
      · rename_i t hadd
        injection h with h2
        rw [← h2]
    · injection h with h2
      rw [← h2]
  · split at h
    · split at h
      · exact Except.noConfusion h
      · injection h with h2
        rw [← h2]
    · split at h
      · exact Except.noConfusion h
      · injection h with h2
        rw [← h2]

/-- Emitting a dotted `START` item records the current state id. -/
theorem fitSituation_start_seed (g : CFGrammar) (states : LRStates)
    (state : LRState) (sm : Nat) (p p' : LR1Parser) (sit : LR1Situation)
    (hyes : sit.rule.1 = START_RULE ∧ sit.pos < sit.rule.2.length)
    (h : fitSituation g states state sm p sit = Except.ok p') :
    p'.start = sm := by
  unfold fitSituation at h
  simp only [bind, Except.bind, pure, Except.pure] at h
  split at h
  · have hlhs : (sit.rule.1 == START_RULE) = true := beq_iff_eq.mpr hyes.1
    split at h
    · split at h
      · exact Except.noConfusion h
      · rename_i t hadd
        injection h with h2
        rw [← h2]
    · injection h with h2
      rw [← h2]
  · rename_i hpos
    exact absurd hyes.2 hpos

/-- Emitting a state that does not contain the seed leaves the start
marker unchanged. -/
theorem fitState_start_other (g : CFGrammar) (states : LRStates)
    (p p' : LR1Parser) (state : LRState)
    (hsp : ∀ it ∈ state, it.rule ∈ g.rules ∧
      (it.rule.1 = START_RULE → it.pos < it.rule.2.length →
        it = ⟨g.get_start_rule, 0, END_TERMINAL⟩))
    (hseed : (⟨g.get_start_rule, 0, END_TERMINAL⟩ : LR1Situation) ∉ state)
    (h : fitState g states p state = Except.ok p') :
    p'.start = p.start := by
  unfold fitState at h
  simp only [bind, Except.bind, pure, Except.pure] at h
  split at h
  · exact Except.noConfusion h
  · rename_i p1 h1
    have hs1 : p1.start = p.start := by
      refine foldlM_ok_pres (fun q : LR1Parser => q.start = p.start) _
        state p p1 ?_ rfl h1
      intro sit hsit q q' hq hfit
      rw [← hq]
      refine fitSituation_start_other g states state _ q q' sit ?_ hfit
      intro hyes
      exact hseed ((hsp sit hsit).2 hyes.1 hyes.2 ▸ hsit)
    rw [← hs1]
    refine foldlM_ok_pres (fun q : LR1Parser => q.start = p1.start) _
      g.non_terminals p1 p' ?_ rfl h
    intro letter hletter q q' hq hfit
    rw [← hq]
    by_cases hgt : (goto g state letter).isEmpty
    · rw [if_pos hgt] at hfit
      injection hfit with h2
      rw [← h2]
    · rw [if_neg hgt] at hfit
      split at hfit
      · exact Except.noConfusion hfit
      · injection hfit with h2
        rw [← h2]

/-- Emitting a duplicate-free state that contains the seed records that
state's id as the start marker. -/
theorem fitState_start_seed (g : CFGrammar) (states : LRStates)
    (p p' : LR1Parser) (state : LRState)
    (hsp : ∀ it ∈ state, it.rule ∈ g.rules ∧
      (it.rule.1 = START_RULE → it.pos < it.rule.2.length →
        it = ⟨g.get_start_rule, 0, END_TERMINAL⟩))
    (hnd : state.Nodup) (hlen1 : g.get_start_rule.2.length = 1)
    (hstart : g.start = START_RULE)
    (hseed : (⟨g.get_start_rule, 0, END_TERMINAL⟩ : LR1Situation) ∈ state)
    (h : fitState g states p state = Except.ok p') :
    p'.start = stateIdx states state := by
  unfold fitState at h
  simp only [bind, Except.bind, pure, Except.pure] at h
  split at h
  · exact Except.noConfusion h
  · rename_i p1 h1
    obtain ⟨l1, l2, rfl⟩ := List.append_of_mem hseed
    have hnotl2 : (⟨g.get_start_rule, 0, END_TERMINAL⟩ :
        LR1Situation) ∉ l2 := by
      have := List.Nodup.of_append_right hnd
      rw [List.nodup_cons] at this
      exact this.1
    rw [List.foldlM_append] at h1
    obtain ⟨pa, hpa, h1b⟩ := bind_eq_ok h1
    rw [List.foldlM_cons] at h1b
    obtain ⟨pb, hpb, h1c⟩ := bind_eq_ok h1b
    have hpbs : pb.start = stateIdx states (l1 ++
        ⟨g.get_start_rule, 0, END_TERMINAL⟩ :: l2) := by
      refine fitSituation_start_seed g states _ _ pa pb _ ?_ hpb
      constructor
      · rw [← hstart]
        rfl
      · simp only
        omega
    have hs1 : p1.start = pb.start := by
      refine foldlM_ok_pres (fun q : LR1Parser => q.start = pb.start) _
        l2 pb p1 ?_ rfl h1c
      intro sit hsit q q' hq hfit
      rw [← hq]
      refine fitSituation_start_other g states _ _ q q' sit ?_ hfit
      intro hyes
      have := (hsp sit (by
        rw [List.mem_append]
        exact Or.inr (List.mem_cons_of_mem _ hsit))).2 hyes.1 hyes.2
      exact hnotl2 (this ▸ hsit)
    have hfin : p'.start = p1.start := by
      refine foldlM_ok_pres (fun q : LR1Parser => q.start = p1.start) _
        g.non_terminals p1 p' ?_ rfl h
      intro letter hletter q q' hq hfit
      rw [← hq]
      by_cases hgt : (goto g (l1 ++ ⟨g.get_start_rule, 0,
          END_TERMINAL⟩ :: l2) letter).isEmpty
      · rw [if_pos hgt] at hfit
        injection hfit with h2
        rw [← h2]
      · rw [if_neg hgt] at hfit
        split at hfit
        · exact Except.noConfusion hfit
        · injection hfit with h2
          rw [← h2]
    rw [hfin, hs1, hpbs]

/-- After a successful fit from a fresh parser, the recorded start state
is the id of the initial state. -/
theorem fit_start (g : CFGrammar) (p' : LR1Parser) (hS : Sane g)
    (h : LR1Parser.fit LR1Parser.new g = Except.ok p') :
    p'.start = stateIdx (get_states g) (initialState g) := by
  unfold LR1Parser.fit at h
  obtain ⟨hnd, hS0⟩ := get_states_grow g
  have hseedS0 : (⟨g.get_start_rule, 0, END_TERMINAL⟩ :
      LR1Situation) ∈ initialState g := by
    unfold initialState
    exact (closure_grow g _ (by simp)).2 _ (List.mem_singleton_self _)
  obtain ⟨L1, L2, hsplit⟩ := List.append_of_mem hS0
  have hndL : (L1 ++ initialState g :: L2).Nodup := hsplit ▸ hnd
  have hnotL2 : initialState g ∉ L2 := by
    have := List.Nodup.of_append_right hndL
    rw [List.nodup_cons] at this
    exact this.1
  rw [hsplit] at h
  rw [List.foldlM_append] at h
  obtain ⟨qa, hqa, hb⟩ := bind_eq_ok h
  rw [List.foldlM_cons] at hb
  obtain ⟨qb, hqb, hc⟩ := bind_eq_ok hb
  have hndS0 : (initialState g).Nodup := by
    unfold initialState
    exact (closure_grow g _ (by simp)).1
  have hqbs : qb.start = stateIdx (L1 ++ initialState g :: L2)
      (initialState g) := by
    exact fitState_start_seed g (L1 ++ initialState g :: L2) qa qb
      (initialState g) (all_states_startP g hS (initialState g) hS0)
      hndS0 hS.hlen hS.hstart hseedS0 hqb
  have hfin : p'.start = qb.start := by
    refine foldlM_ok_pres (fun q : LR1Parser => q.start = qb.start) _
      L2 qb p' ?_ rfl hc
    intro st hst q q' hq hfit
    rw [← hq]
    have hstmem : st ∈ get_states g := by
      rw [hsplit, List.mem_append]
      exact Or.inr (List.mem_cons_of_mem _ hst)
    refine fitState_start_other g (L1 ++ initialState g :: L2) q q' st
      (all_states_startP g hS st hstmem) ?_ hfit
    intro hseed
    exact hnotL2 ((states_seed_only_S0 g hS st hstmem hseed) ▸ hst)
  rw [hfin, hqbs, ← hsplit]

end Langram
namespace Langram

/-- Emitting one item changes no cell outside its own writes: other rows
always, and, within its row, other columns than the dotted symbol (dot
inside) or the lookahead (dot at the end). -/
theorem fitSituation_keep (g : CFGrammar) (states : LRStates)
    (state : LRState) (sm : Nat) (p p' : LR1Parser) (sit : LR1Situation)
    (h : fitSituation g states state sm p sit = Except.ok p')
    (S : Nat) (C : Char)
    (hk : S ≠ sm ∨ (sit.pos < sit.rule.2.length ∧ C ≠ sit.nth sit.pos) ∨
      (¬ sit.pos < sit.rule.2.length ∧ C ≠ sit.lookahead)) :
    transGet p'.transitions S C = transGet p.transitions S C := by
  unfold fitSituation at h
  simp only [bind, Except.bind, pure, Except.pure] at h
  split at h
  · rename_i hpos
    have hne : S ≠ sm ∨ C ≠ sit.nth sit.pos := by
      rcases hk with hk | hk | hk
      · exact Or.inl hk
      · exact Or.inr hk.2
      · exact absurd hpos hk.1
    split at h
    · split at h
      · exact Except.noConfusion h
      · rename_i t hadd
        split at h <;>
          (injection h with h2; rw [← h2];
           exact add_transition_get_other p.transitions sm
             (sit.nth sit.pos) _ t hadd S C hne)
    · split at h <;> (injection h with h2; rw [← h2])
  · rename_i hpos
    have hne : S ≠ sm ∨ C ≠ sit.lookahead := by
      rcases hk with hk | hk | hk
      · exact Or.inl hk
      · exact absurd hk.1 hpos
      · exact Or.inr hk.2
    split at h
    · split at h
      · exact Except.noConfusion h
      · rename_i t hadd
        injection h with h2
        rw [← h2]
        exact add_transition_get_other p.transitions sm sit.lookahead _
          t hadd S C hne
    · split at h
      · exact Except.noConfusion h
      · rename_i t hadd
        injection h with h2
        rw [← h2]
        exact add_transition_get_other p.transitions sm sit.lookahead _
          t hadd S C hne

/-- Emitting a state leaves every other row of the table unchanged. -/
theorem fitState_row_keep (g : CFGrammar) (states : LRStates)
    (p p' : LR1Parser) (state : LRState)
    (h : fitState g states p state = Except.ok p')
    (S : Nat) (hS : S ≠ stateIdx states state) (C : Char) :
    transGet p'.transitions S C = transGet p.transitions S C := by
  unfold fitState at h
  simp only [bind, Except.bind, pure, Except.pure] at h
  split at h
  · exact Except.noConfusion h
  · rename_i p1 h1
    have hk1 : transGet p1.transitions S C = transGet p.transitions S C := by
      refine foldlM_ok_pres (fun q : LR1Parser =>
        transGet q.transitions S C = transGet p.transitions S C) _
        state p p1 ?_ rfl h1
      intro sit hsit q q' hq hfit
      rw [← hq]
      exact fitSituation_keep g states state _ q q' sit hfit S C
        (Or.inl hS)
    rw [← hk1]
    refine foldlM_ok_pres (fun q : LR1Parser =>
      transGet q.transitions S C = transGet p1.transitions S C) _
      g.non_terminals p1 p' ?_ rfl h
    intro letter hletter q q' hq hfit
    rw [← hq]
    by_cases hgt : (goto g state letter).isEmpty
    · rw [if_pos hgt] at hfit
      injection hfit with h2
      rw [← h2]
    · rw [if_neg hgt] at hfit
      split at hfit
      · exact Except.noConfusion hfit
      · rename_i t hadd
        injection hfit with h2
        rw [← h2]
        exact add_transition_get_other q.transitions _ letter _ t hadd
          S C (Or.inl hS)

/-- Emitting a state whose items all have the dot inside the body over a
non-`END` symbol never touches an `END` column. -/
theorem fitState_end_keep (g : CFGrammar) (states : LRStates)
    (p p' : LR1Parser) (state : LRState)
    (hitems : ∀ it ∈ state, it.pos < it.rule.2.length ∧
      it.nth it.pos ≠ END_TERMINAL)
    (hEndN : END_TERMINAL ∉ g.non_terminals)
    (h : fitState g states p state = Except.ok p') (S : Nat) :
    transGet p'.transitions S END_TERMINAL =
      transGet p.transitions S END_TERMINAL := by
  unfold fitState at h
  simp only [bind, Except.bind, pure, Except.pure] at h
  split at h
  · exact Except.noConfusion h
  · rename_i p1 h1
    have hk1 : transGet p1.transitions S END_TERMINAL =
        transGet p.transitions S END_TERMINAL := by
      refine foldlM_ok_pres (fun q : LR1Parser =>
        transGet q.transitions S END_TERMINAL =
          transGet p.transitions S END_TERMINAL) _ state p p1 ?_ rfl h1
      intro sit hsit q q' hq hfit
      rw [← hq]
      refine fitSituation_keep g states state _ q q' sit hfit S
        END_TERMINAL (Or.inr (Or.inl ?_))
      exact ⟨(hitems sit hsit).1, fun he => (hitems sit hsit).2 he.symm⟩
    rw [← hk1]
    refine foldlM_ok_pres (fun q : LR1Parser =>
      transGet q.transitions S END_TERMINAL =
        transGet p1.transitions S END_TERMINAL) _
      g.non_terminals p1 p' ?_ rfl h
    intro letter hletter q q' hq hfit
    rw [← hq]
    by_cases hgt : (goto g state letter).isEmpty
    · rw [if_pos hgt] at hfit
      injection hfit with h2
      rw [← h2]
    · rw [if_neg hgt] at hfit
      split at hfit
      · exact Except.noConfusion hfit
      · rename_i t hadd
        injection hfit with h2
        rw [← h2]
        refine add_transition_get_other q.transitions _ letter _ t hadd
          S END_TERMINAL (Or.inr ?_)
        intro he
        exact hEndN (he ▸ hletter)

/-- The items of the initial state all sit at dot position zero on a
stored production. -/
theorem initialState_pos0 (g : CFGrammar)
    (hmem : g.get_start_rule ∈ g.rules) :
    ∀ it ∈ initialState g, it.pos = 0 ∧ it.rule ∈ g.rules := by
  unfold initialState
  apply closure_pres g (fun it => it.pos = 0 ∧ it.rule ∈ g.rules)
  · intro sit _ _ rr hrr la
    exact ⟨rfl, get_vec_mem g _ rr hrr⟩
  · intro it hit
    rcases List.mem_singleton.mp hit with rfl
    exact ⟨rfl, hmem⟩

/-- After a successful fit of a sanely built grammar with non-empty rule
bodies, the `END` cell of the initial state's row is never written. -/
theorem fit_S0_end (g : CFGrammar) (p' : LR1Parser) (hS : Sane g)
    (hNE : ∀ r ∈ g.rules, r.2 ≠ [])
    (h : LR1Parser.fit LR1Parser.new g = Except.ok p') :
    transGet p'.transitions (stateIdx (get_states g) (initialState g))
      END_TERMINAL = LR1Action.NoAction := by
  unfold LR1Parser.fit at h
  obtain ⟨hnd, hS0⟩ := get_states_grow g
  refine foldlM_ok_pres (fun q : LR1Parser =>
    transGet q.transitions (stateIdx (get_states g) (initialState g))
      END_TERMINAL = LR1Action.NoAction) _ (get_states g)
    LR1Parser.new p' ?_ rfl h
  intro st hst q q' hq hfit
  by_cases hs0 : st = initialState g
  · rw [← hq]
    refine fitState_end_keep g (get_states g) q q' st ?_ hS.hNoEndN
      hfit _
    intro it hit
    rw [hs0] at hit
    obtain ⟨hp0, hr⟩ := initialState_pos0 g hS.hmem it hit
    have hlen : it.rule.2 ≠ [] := hNE it.rule hr
    have hlt : it.pos < it.rule.2.length := by
      rw [hp0]
      cases hrl : it.rule.2 with
      | nil => exact absurd hrl hlen
      | cons a as => simp
    refine ⟨hlt, ?_⟩
    intro he
    exact hS.hNoEndRhs it.rule hr (he ▸ nthLR_mem it hlt)
  · rw [← hq]
    refine fitState_row_keep g (get_states g) q q' st hfit _ ?_ _
    intro heq
    exact hs0 (stateIdx_inj (initialState g) st (get_states g) hnd hS0
      hst heq).symm

/-- A driver step over an `END`-headed stack against an empty cell
rejects at once. -/
theorem lr_empty_run (t : Transitions) (S : Nat) (fuel : Nat)
    (h : transGet t S END_TERMINAL = LR1Action.NoAction) :
    (lrRun t [S] [END_TERMINAL] (fuel + 1)).2 =
      some (DriveRes.ret false) := by
  have h1 : transGet (transEnsure t S END_TERMINAL) S END_TERMINAL =
      LR1Action.NoAction := by
    rw [transGet_transEnsure]
    exact h
  rw [lrRun]
  simp only [h1]

/-- The prediction pass keeps every item of layer zero at dot position
zero on a stored production. -/
theorem predictStep0 (g : CFGrammar) (chart : Chart)
    (h : ∀ it ∈ chart.getD 0 [], it.pos = 0 ∧ it.rule ∈ g.rules) :
    ∀ it ∈ (predictStep g chart 0).getD 0 [],
      it.pos = 0 ∧ it.rule ∈ g.rules := by
  intro it hit
  simp only [predictStep] at hit
  rw [getD_set] at hit
  split at hit
  · rw [mem_extendSits] at hit
    rcases hit with hit | hit
    · exact h it hit
    · revert it hit
      refine foldl_inv (fun acc : List EarleySituation => ∀ y ∈ acc,
          y.pos = 0 ∧ y.rule ∈ g.rules) _ _ []
        (fun y hy => absurd hy (List.not_mem_nil y)) ?_
      intro acc sit hsit hacc y hy
      by_cases hguard : sit.rule.2.length ≤ sit.pos
      · rw [if_pos hguard] at hy
        exact hacc y hy
      · rw [if_neg hguard] at hy
        revert y hy
        refine foldl_inv (fun acc2 : List EarleySituation => ∀ y ∈ acc2,
            y.pos = 0 ∧ y.rule ∈ g.rules) _ _ acc hacc ?_
        intro acc2 rr hrr hacc2 y hy
        rw [mem_insertSit] at hy
        rcases hy with hy | rfl
        · exact hacc2 y hy
        · exact ⟨rfl, get_vec_mem g _ rr hrr⟩
  · exact h it hit

/-- With non-empty rule bodies, the completion pass adds nothing to layer
zero. -/
theorem completeStep0 (g : CFGrammar) (chart : Chart)
    (hNE : ∀ r ∈ g.rules, r.2 ≠ [])
    (h : ∀ it ∈ chart.getD 0 [], it.pos = 0 ∧ it.rule ∈ g.rules) :
    ∀ it ∈ (completeStep chart 0).getD 0 [],
      it.pos = 0 ∧ it.rule ∈ g.rules := by
  have hnews : (chart.getD 0 []).foldl (fun acc cs =>
      if cs.pos ≠ cs.rule.2.length then acc
      else (chart.getD cs.prev_cnt []).foldl (fun acc2 ps =>
        if ps.nth ps.pos == cs.rule.1 then
          insertSit ⟨ps.rule, ps.pos + 1, ps.prev_cnt⟩ acc2
        else acc2) acc) [] = [] := by
    refine foldl_inv (fun acc : List EarleySituation => acc = []) _ _ _
      rfl ?_
    intro acc cs hcs hacc
    obtain ⟨hp0, hr⟩ := h cs hcs
    have hlen : cs.rule.2 ≠ [] := hNE cs.rule hr
    have hguard : cs.pos ≠ cs.rule.2.length := by
      rw [hp0]
      intro hz
      exact hlen (List.eq_nil_of_length_eq_zero hz.symm)
    rw [if_pos hguard]
    exact hacc
  intro it hit
  simp only [completeStep] at hit
  rw [hnews, getD_set] at hit
  split at hit
  · exact h it hit
  · exact h it hit

/-- Saturating layer zero keeps all its items at dot position zero. -/
theorem do_layer0 (g : CFGrammar) (hNE : ∀ r ∈ g.rules, r.2 ≠ []) :
    ∀ (fuel : Nat) (chart : Chart),
    (∀ it ∈ chart.getD 0 [], it.pos = 0 ∧ it.rule ∈ g.rules) →
    ∀ it ∈ (do_layer g fuel chart 0).getD 0 [],
      it.pos = 0 ∧ it.rule ∈ g.rules := by
  intro fuel
  induction fuel with
  | zero => intro chart h; exact h
  | succ n ihn =>
    intro chart h
    rw [do_layer]
    split
    · exact completeStep0 g _ hNE (predictStep0 g chart h)
    · exact ihn _ (completeStep0 g _ hNE (predictStep0 g chart h))

/-- C6 (amended): on the empty input, a sanely built grammar with all
rule bodies non-empty makes the Earley recognizer return `false` and the
fitted LR(1) recognizer return `false` on its very first step (for every
driver fuel). -/
theorem C6_amended (g : CFGrammar) (p' : LR1Parser) (hS : Sane g)
    (hNE : ∀ r ∈ g.rules, r.2 ≠ [])
    (hfitLR : LR1Parser.fit LR1Parser.new g = Except.ok p') :
    earleyRecognize g [] = false ∧
    ∀ fuel, (p'.predictRun [] (fuel + 1)).2 =
      some (DriveRes.ret false) := by
  constructor
  · by_cases hfit : EarleyParser.check_grammar g = true
    · have hrec : earleyRecognize g [] =
          ((earleyChart g []).getD 0 []).contains
            (⟨g.get_start_rule, g.get_start_rule.2.length, 0⟩ :
              EarleySituation) := by
        unfold earleyRecognize EarleyParser.fit
        rw [if_pos hfit]
        rfl
      have hlayer : ∀ it ∈ (earleyChart g []).getD 0 [],
          it.pos = 0 ∧ it.rule ∈ g.rules := by
        unfold earleyChart
        apply do_layer0 g hNE
        intro it hit
        rw [getD_set] at hit
        split at hit
        · rcases List.mem_singleton.mp hit with rfl
          exact ⟨rfl, hS.hmem⟩
        · rw [List.getD_eq_getElem?_getD, List.getElem?_replicate]
            at hit
          split at hit
          · exact absurd hit (List.not_mem_nil it)
          · exact absurd hit (List.not_mem_nil it)
      have hnotin : (⟨g.get_start_rule, g.get_start_rule.2.length, 0⟩ :
          EarleySituation) ∉ (earleyChart g []).getD 0 [] := by
        intro hin
        have := (hlayer _ hin).1
        simp only at this
        rw [hS.hlen] at this
        exact Nat.one_ne_zero this
      rw [hrec]
      cases hcc : ((earleyChart g []).getD 0 []).contains
          (⟨g.get_start_rule, g.get_start_rule.2.length, 0⟩ :
            EarleySituation) with
      | false => rfl
      | true => exact absurd (by simpa using hcc) hnotin
    · unfold earleyRecognize EarleyParser.fit
      rw [if_neg hfit]
  · intro fuel
    show (lrRun p'.transitions [p'.start] ([] ++ [END_TERMINAL])
      (fuel + 1)).2 = some (DriveRes.ret false)
    rw [List.nil_append, fit_start g p' hS hfitLR]
    exact lr_empty_run p'.transitions _ fuel (fit_S0_end g p' hS hNE hfitLR)

/-- Witness for the amended C6 at the grammar `S → a` and its concretely
fitted parser. -/
theorem C6_amended_witness :
    earleyRecognize gUnit [] = false ∧
    ((⟨[(0, [('a', LR1Action.Shift 2), ('S', LR1Action.Shift 1)]),
        (1, [(END_TERMINAL, LR1Action.Accept)]),
        (2, [(END_TERMINAL, LR1Action.Reduce 1 'S')])], 0⟩ :
      LR1Parser).predictRun [] 1).2 = some (DriveRes.ret false) := by
  have h := C6_amended gUnit
    ⟨[(0, [('a', LR1Action.Shift 2), ('S', LR1Action.Shift 1)]),
      (1, [(END_TERMINAL, LR1Action.Accept)]),
      (2, [(END_TERMINAL, LR1Action.Reduce 1 'S')])], 0⟩
    (by constructor <;> decide) (by decide) (by rfl)
  exact ⟨h.1, h.2 0⟩

end Langram
namespace Langram

end Langram
namespace Langram

/-- Guarded insert preserves duplicate-freedom. -/
theorem insertSit_nodup (x : EarleySituation) (s : List EarleySituation)
    (h : s.Nodup) : (insertSit x s).Nodup := by
  unfold insertSit
  by_cases hx : x ∈ s
  · rw [if_pos hx]
    exact h
  · rw [if_neg hx]
    rw [List.nodup_append]
    exact ⟨h, List.nodup_singleton x, by simpa using hx⟩

/-- Set-extension preserves duplicate-freedom. -/
theorem extendSits_nodup (news : List EarleySituation) :
    ∀ s : List EarleySituation, s.Nodup → (extendSits s news).Nodup := by
  unfold extendSits
  induction news with
  | nil => intro s h; exact h
  | cons x xs ihx =>
    intro s h
    rw [List.foldl_cons]
    exact ihx _ (insertSit_nodup x s h)

/-- All chart operations preserve the chart's length. -/
theorem predictStep_length (g : CFGrammar) (chart : Chart) (curr : Nat) :
    (predictStep g chart curr).length = chart.length := by
  simp [predictStep]

/-- `scanStep` preserves the chart's length. -/
theorem scanStep_length (chart : Chart) (c : Char) (curr : Nat) :
    (scanStep chart c curr).length = chart.length := by
  simp [scanStep]

/-- `completeStep` preserves the chart's length. -/
theorem completeStep_length (chart : Chart) (curr : Nat) :
    (completeStep chart curr).length = chart.length := by
  simp [completeStep]

/-- `layerPass` preserves the chart's length. -/
theorem layerPass_length (g : CFGrammar) (chart : Chart) (layer : Nat) :
    (layerPass g chart layer).length = chart.length := by
  unfold layerPass
  rw [completeStep_length, predictStep_length]

/-- `do_layer` preserves the chart's length. -/
theorem do_layer_length (g : CFGrammar) (fuel : Nat) :
    ∀ (chart : Chart) (layer : Nat),
    (do_layer g fuel chart layer).length = chart.length := by
  induction fuel with
  | zero => intro chart layer; rfl
  | succ n ihn =>
    intro chart layer
    rw [do_layer]
    split
    · exact layerPass_length g chart layer
    · rw [ihn, layerPass_length]

/-- `processWord` preserves the chart's length. -/
theorem processWord_length (g : CFGrammar) (fuel : Nat) :
    ∀ (ws : List Char) (chart : Chart) (i : Nat),
    (processWord g fuel chart ws i).length = chart.length := by
  intro ws
  induction ws with
  | nil => intro chart i; rfl
  | cons c rest ihr =>
    intro chart i
    rw [processWord, ihr, do_layer_length, scanStep_length]

/-- The prediction pass keeps dots inside rule bodies. -/
theorem predictStep_pos (g : CFGrammar) (chart : Chart) (curr : Nat)
    (h : ChartPos chart) : ChartPos (predictStep g chart curr) := by
  intro k it hit
  simp only [predictStep] at hit
  rw [getD_set] at hit
  split at hit
  · rename_i hk
    rw [mem_extendSits] at hit
    rcases hit with hit | hit
    · exact h curr it hit
    · revert it hit
      refine foldl_inv (fun acc : List EarleySituation => ∀ y ∈ acc,
          y.pos ≤ y.rule.2.length) _ _ []
        (fun y hy => absurd hy (List.not_mem_nil y)) ?_
      intro acc sit hsit hacc y hy
      by_cases hguard : sit.rule.2.length ≤ sit.pos
      · rw [if_pos hguard] at hy
        exact hacc y hy
      · rw [if_neg hguard] at hy
        revert y hy
        refine foldl_inv (fun acc2 : List EarleySituation => ∀ y ∈ acc2,
            y.pos ≤ y.rule.2.length) _ _ acc hacc ?_
        intro acc2 rr hrr hacc2 y hy
        rw [mem_insertSit] at hy
        rcases hy with hy | rfl
        · exact hacc2 y hy
        · exact Nat.zero_le _
  · exact h k it hit

/-- The scan pass keeps dots inside rule bodies. -/
theorem scanStep_pos (chart : Chart) (c : Char) (curr : Nat)
    (h : ChartPos chart) : ChartPos (scanStep chart c curr) := by
  intro k it hit
  simp only [scanStep] at hit
  rw [getD_set] at hit
  split at hit
  · rename_i hk
    rw [mem_extendSits] at hit
    rcases hit with hit | hit
    · exact h (curr + 1) it hit
    · revert it hit
      refine foldl_inv (fun acc : List EarleySituation => ∀ y ∈ acc,
          y.pos ≤ y.rule.2.length) _ _ []
        (fun y hy => absurd hy (List.not_mem_nil y)) ?_
      intro acc sit hsit hacc y hy
      by_cases hguard : sit.rule.2.length ≤ sit.pos
      · rw [if_pos hguard] at hy
        exact hacc y hy
      · rw [if_neg hguard] at hy
        by_cases hm : sit.nth sit.pos == c
        · rw [if_pos hm] at hy
          rw [mem_insertSit] at hy
          rcases hy with hy | rfl
          · exact hacc y hy
          · show sit.pos + 1 ≤ sit.rule.2.length
            omega
        · rw [if_neg hm] at hy
          exact hacc y hy
  · exact h k it hit

/-- Out of range, `nth` is the character default. -/
theorem nth_ge (it : EarleySituation) (h : it.rule.2.length ≤ it.pos) :
    it.nth it.pos = Char.ofNat 0 := by
  unfold EarleySituation.nth
  rw [List.getD_eq_getElem?_getD, List.getElem?_eq_none h]
  rfl

/-- The completion pass keeps dots inside rule bodies (for grammars whose
left-hand sides avoid the character default, a complete item's `nth` can
never match a completed rule's left-hand side). -/
theorem completeStep_pos (g : CFGrammar) (w : List Char) (chart : Chart)
    (curr : Nat) (hNoNul : ∀ r ∈ g.rules, r.1 ≠ Char.ofNat 0)
    (hinv : ChartInv g w chart)
    (h : ChartPos chart) : ChartPos (completeStep chart curr) := by
  intro k it hit
  simp only [completeStep] at hit
  rw [getD_set] at hit
  split at hit
  · rename_i hk
    rw [mem_extendSits] at hit
    rcases hit with hit | hit
    · exact h curr it hit
    · revert it hit
      refine foldl_inv (fun acc : List EarleySituation => ∀ y ∈ acc,
          y.pos ≤ y.rule.2.length) _ _ []
        (fun y hy => absurd hy (List.not_mem_nil y)) ?_
      intro acc cs hcs hacc y hy
      by_cases hguard : cs.pos ≠ cs.rule.2.length
      · rw [if_pos hguard] at hy
        exact hacc y hy
      · rw [if_neg hguard] at hy
        revert y hy
        refine foldl_inv (fun acc2 : List EarleySituation => ∀ y ∈ acc2,
            y.pos ≤ y.rule.2.length) _ _ acc hacc ?_
        intro acc2 ps hps hacc2 y hy
        by_cases hm : ps.nth ps.pos == cs.rule.1
        · rw [if_pos hm] at hy
          rw [mem_insertSit] at hy
          rcases hy with hy | rfl
          · exact hacc2 y hy
          · show ps.pos + 1 ≤ ps.rule.2.length
            have hp := h cs.prev_cnt ps hps
            by_cases hlt : ps.pos < ps.rule.2.length
            · omega
            · exfalso
              have hnul : ps.nth ps.pos = Char.ofNat 0 :=
                nth_ge ps (by omega)
              have hlhs : cs.rule.1 ≠ Char.ofNat 0 :=
                hNoNul cs.rule (hinv curr cs hcs).2.1
              exact hlhs (hnul ▸ eq_of_beq hm).symm
        · rw [if_neg hm] at hy
          exact hacc2 y hy
  · exact h k it hit

end Langram
namespace Langram

/-- One pass keeps dots inside rule bodies. -/
theorem layerPass_pos (g : CFGrammar) (w : List Char) (chart : Chart)
    (layer : Nat) (hNoNul : ∀ r ∈ g.rules, r.1 ≠ Char.ofNat 0)
    (hinv : ChartInv g w chart) (h : ChartPos chart) :
    ChartPos (layerPass g chart layer) :=
  completeStep_pos g w _ layer hNoNul
    (predictStep_inv g w chart layer hinv)
    (predictStep_pos g chart layer h)

/-- The saturation loop keeps dots inside rule bodies. -/
theorem do_layer_pos (g : CFGrammar) (w : List Char) (fuel : Nat)
    (hNoNul : ∀ r ∈ g.rules, r.1 ≠ Char.ofNat 0) :
    ∀ (chart : Chart) (layer : Nat), ChartInv g w chart →
    ChartPos chart → ChartPos (do_layer g fuel chart layer) := by
  induction fuel with
  | zero => intro chart layer _ h; exact h
  | succ n ihn =>
    intro chart layer hinv h
    rw [do_layer]
    split
    · exact layerPass_pos g w chart layer hNoNul hinv h
    · exact ihn _ layer (layerPass_inv g w chart layer hinv)
        (layerPass_pos g w chart layer hNoNul hinv h)

/-- The word loop keeps dots inside rule bodies. -/
theorem processWord_pos (g : CFGrammar) (w : List Char) (fuel : Nat)
    (hNoNul : ∀ r ∈ g.rules, r.1 ≠ Char.ofNat 0) :
    ∀ (ws : List Char) (chart : Chart) (i : Nat), w.drop i = ws →
    ChartInv g w chart → ChartPos chart →
    ChartPos (processWord g fuel chart ws i) := by
  intro ws
  induction ws with
  | nil => intro chart i _ _ h; exact h
  | cons c rest ihr =>
    intro chart i hdrop hinv h
    have hi : i < w.length := by
      by_contra hge
      rw [List.drop_eq_nil_of_le (by omega)] at hdrop
      exact List.cons_ne_nil c rest hdrop.symm
    have hsplit : w[i] :: w.drop (i + 1) = c :: rest := by
      rw [List.getElem_cons_drop w i hi, hdrop]
    injection hsplit with hc hrest
    subst hc
    rw [processWord]
    exact ihr _ (i + 1) hrest
      (do_layer_inv g w fuel _ (i + 1) (scanStep_inv g w chart i hi hinv))
      (do_layer_pos g w fuel hNoNul _ (i + 1)
        (scanStep_inv g w chart i hi hinv)
        (scanStep_pos chart _ i h))

/-- The prediction pass keeps layers duplicate-free. -/
theorem predictStep_nodup (g : CFGrammar) (chart : Chart) (curr : Nat)
    (h : ChartNodup chart) : ChartNodup (predictStep g chart curr) := by
  intro k
  simp only [predictStep]
  rw [getD_set]
  split
  · exact extendSits_nodup _ _ (h curr)
  · exact h k

/-- The scan pass keeps layers duplicate-free. -/
theorem scanStep_nodup (chart : Chart) (c : Char) (curr : Nat)
    (h : ChartNodup chart) : ChartNodup (scanStep chart c curr) := by
  intro k
  simp only [scanStep]
  rw [getD_set]
  split
  · exact extendSits_nodup _ _ (h (curr + 1))
  · exact h k

/-- The completion pass keeps layers duplicate-free. -/
theorem completeStep_nodup (chart : Chart) (curr : Nat)
    (h : ChartNodup chart) : ChartNodup (completeStep chart curr) := by
  intro k
  simp only [completeStep]
  rw [getD_set]
  split
  · exact extendSits_nodup _ _ (h curr)
  · exact h k

/-- One pass keeps layers duplicate-free. -/
theorem layerPass_nodup (g : CFGrammar) (chart : Chart) (layer : Nat)
    (h : ChartNodup chart) : ChartNodup (layerPass g chart layer) :=
  completeStep_nodup _ layer (predictStep_nodup g chart layer h)

/-- The saturation loop keeps layers duplicate-free. -/
theorem do_layer_nodup (g : CFGrammar) (fuel : Nat) :
    ∀ (chart : Chart) (layer : Nat), ChartNodup chart →
    ChartNodup (do_layer g fuel chart layer) := by
  induction fuel with
  | zero => intro chart layer h; exact h
  | succ n ihn =>
    intro chart layer h
    rw [do_layer]
    split
    · exact layerPass_nodup g chart layer h
    · exact ihn _ layer (layerPass_nodup g chart layer h)

/-- The word loop keeps layers duplicate-free. -/
theorem processWord_nodup (g : CFGrammar) (fuel : Nat) :
    ∀ (ws : List Char) (chart : Chart) (i : Nat), ChartNodup chart →
    ChartNodup (processWord g fuel chart ws i) := by
  intro ws
  induction ws with
  | nil => intro chart i h; exact h
  | cons c rest ihr =>
    intro chart i h
    rw [processWord]
    exact ihr _ (i + 1)
      (do_layer_nodup g fuel _ (i + 1) (scanStep_nodup chart c i h))

end Langram
namespace Langram

end Langram
namespace Langram

end Langram
namespace Langram

/-- The word loop never touches layers at or below its current
position. -/
theorem processWord_untouched (g : CFGrammar) (fuel : Nat) :
    ∀ (ws : List Char) (chart : Chart) (i k : Nat), k ≤ i →
    (processWord g fuel chart ws i).getD k [] = chart.getD k [] := by
  intro ws
  induction ws with
  | nil => intro chart i k _; rfl
  | cons c rest ihr =>
    intro chart i k hk
    rw [processWord]
    rw [ihr _ (i + 1) k (by omega), do_layer_other g fuel _ (i + 1) k
      (by omega), scanStep_other chart c i k (by omega)]

end Langram
namespace Langram

end Langram

namespace Langram

end Langram
